import Mathlib

/-!
Verification of the minimongo projection compiler.

This file gives a shallow embedding of the projection-compilation core:

* `_compileProjection` / its inner `transform` closure and the `_id` rule,
* `projectionDetails` (mode resolution and path-tree construction),
* `pathsToTree` (the generic dotted-path tree builder),
* `_checkSupportedProjection` (specification validation),
* the type-classification primitives (`isArray`, `isPlainObject`,
  `isIndexable`, `isOperatorObject`).

Documents are JSON-like values.  Plain objects and arrays additionally carry
a numeric identity label modelling JavaScript reference identity of mutable
values: `EJSON.clone` and fresh literals produce label `0` (a fresh
allocation), while plain JavaScript assignment preserves labels.  A value in
an output that carries a nonzero label of the input is a value shared (by
reference) with the input, so mutating it would mutate the input.
Deep equality (`EJSON.equals` with its default options) ignores labels and
object key order; it is modelled by `deq` below.

Thrown `MinimongoError`s are modelled with `Except` over the inductive
`MError`, one constructor per throw site of the source.
-/

set_option maxHeartbeats 4000000

namespace MiniMongo

/-- Document values.  `vobj` fields are in JavaScript property insertion
order; `id` is the mutable-identity label (0 = freshly allocated). -/
inductive Val : Type where
  | vnull : Val
  | vbool (b : Bool) : Val
  | vnum (n : Int) : Val
  | vstr (s : String) : Val
  | vdate (n : Int) : Val
  | vregex (s : String) : Val
  | vbin (bs : List Nat) : Val
  | varr (id : Nat) (elems : List Val) : Val
  | vobj (id : Nat) (fields : List (String × Val)) : Val

/-- Projection rule trees: a node is a plain JS object mapping path segments
to subtrees, a leaf holds the value returned by `newLeafFn` (for the
projection compiler that value is `details.including`, possibly `null`,
hence `Option Bool`). -/
inductive RuleTree : Type where
  | leaf (v : Option Bool) : RuleTree
  | node (cs : List (String × RuleTree)) : RuleTree

/-- Lookup of an own property in an object's field list (first match). -/
def getField : List (String × Val) → String → Option Val
  | [], _ => none
  | (k, v) :: rest, key => if k == key then some v else getField rest key

/-- Property read `doc[key]`; string-keyed own properties live on plain
objects only in this model. -/
def getKey : Val → String → Option Val
  | .vobj _ fs, k => getField fs k
  | _, _ => none

/-- Underscore's `_.has(doc, key)` (own-property test). -/
def hasKey (v : Val) (k : String) : Bool := (getKey v k).isSome

/-- Property write on a field list: JavaScript assignment replaces an
existing key in place and appends a missing key at the end. -/
def setField : List (String × Val) → String → Val → List (String × Val)
  | [], key, v => [(key, v)]
  | (k, w) :: rest, key, v =>
    if k == key then (k, v) :: rest else (k, w) :: setField rest key v

/-- Property write `res[key] = v`; silently a no-op on non-objects, as
JavaScript assignment to a primitive is. -/
def setKey : Val → String → Val → Val
  | .vobj i fs, k, v => .vobj i (setField fs k v)
  | x, _, _ => x

/-- Property removal `delete res[key]`; a no-op on non-objects. -/
def delKey : Val → String → Val
  | .vobj i fs, k => .vobj i (fs.filter (fun p => p.1 != k))
  | x, _ => x

/-- Underscore's `_.isArray` (`Array.isArray`): true only of true arrays,
not of binary (typed-array) values. -/
def jsIsArray : Val → Bool
  | .varr _ _ => true
  | _ => false

/-- Underscore's `_.isObject`: anything of JS `typeof` "object" except
`null` (so plain objects, arrays, dates, regexps and binary values). -/
def jsIsObject : Val → Bool
  | .varr _ _ => true
  | .vobj _ _ => true
  | .vdate _ => true
  | .vregex _ => true
  | .vbin _ => true
  | _ => false

/-- JavaScript `typeof val === 'object'` (which is also true of `null`). -/
def jsTypeofObject : Val → Bool
  | .vnull => true
  | .varr _ _ => true
  | .vobj _ _ => true
  | .vdate _ => true
  | .vregex _ => true
  | .vbin _ => true
  | _ => false

/-- JavaScript truthiness of a value. -/
def jsTruthy : Val → Bool
  | .vnull => false
  | .vbool b => b
  | .vnum n => n != 0
  | .vstr s => s != ""
  | _ => true

/-- Underscore's `_.keys`: own enumerable keys; plain objects expose their
field names, arrays and binaries their index strings, everything else none. -/
def jsKeys : Val → List String
  | .vobj _ fs => fs.map Prod.fst
  | .varr _ es => (List.range es.length).map (fun i => toString i)
  | .vbin bs => (List.range bs.length).map (fun i => toString i)
  | _ => []

mutual
/-- `EJSON.clone`: a structural deep copy; every mutable (object/array)
node of the copy is freshly allocated, hence label 0. -/
def clone : Val → Val
  | .varr _ elems => .varr 0 (cloneList elems)
  | .vobj _ fs => .vobj 0 (cloneFields fs)
  | v => v

def cloneList : List Val → List Val
  | [] => []
  | v :: rest => clone v :: cloneList rest

def cloneFields : List (String × Val) → List (String × Val)
  | [] => []
  | (k, v) :: rest => (k, clone v) :: cloneFields rest
end

mutual
/-- Identity labels of the mutable (object/array) nodes of a value. -/
def mutIds : Val → List Nat
  | .varr i elems => i :: mutIdsList elems
  | .vobj i fs => i :: mutIdsFields fs
  | _ => []

def mutIdsList : List Val → List Nat
  | [] => []
  | v :: rest => mutIds v ++ mutIdsList rest

def mutIdsFields : List (String × Val) → List Nat
  | [] => []
  | (_, v) :: rest => mutIds v ++ mutIdsFields rest
end

mutual
/-- Deep equality, after `EJSON.equals` with default options: identity
labels are ignored and object key order is ignored (arrays stay ordered). -/
def deq : Val → Val → Bool
  | .vnull, .vnull => true
  | .vbool a, .vbool b => a == b
  | .vnum a, .vnum b => a == b
  | .vstr a, .vstr b => a == b
  | .vdate a, .vdate b => a == b
  | .vregex a, .vregex b => a == b
  | .vbin a, .vbin b => a == b
  | .varr _ l1, .varr _ l2 => deqList l1 l2
  | .vobj _ f1, .vobj _ f2 => (f1.length == f2.length) && deqFields f1 f2
  | _, _ => false

def deqList : List Val → List Val → Bool
  | [], [] => true
  | a :: as_, b :: bs => deq a b && deqList as_ bs
  | _, _ => false

def deqFields : List (String × Val) → List (String × Val) → Bool
  | [], _ => true
  | (k, v) :: rest, f2 =>
    (match getField f2 k with
     | some w => deq v w
     | none => false) && deqFields rest f2
end

/-- Key-distinctness of a field list (JavaScript objects cannot repeat a
property name). -/
def nodupFields : List (String × Val) → Bool
  | [] => true
  | (k, _) :: rest => rest.all (fun p => p.1 != k) && nodupFields rest

mutual
/-- Well-formed documents: every object level has distinct keys (true of
every value that can come from a real JavaScript object graph). -/
def wf : Val → Bool
  | .varr _ elems => wfList elems
  | .vobj _ fs => nodupFields fs && wfFields fs
  | _ => true

def wfList : List Val → Bool
  | [] => true
  | v :: rest => wf v && wfList rest

def wfFields : List (String × Val) → Bool
  | [] => true
  | (_, v) :: rest => wf v && wfFields rest
end

/-- Thrown errors, one constructor per throw site.  In the specification's
error taxonomy, `unsupportedDollarOp` and `unsupportedProjectionOps` are
both `UnsupportedProjectionOperatorError`, `invalidProjectionValue` is
`InvalidProjectionValueError`, `mixedIncludingExcluding` is
`MixedProjectionModeError`, `ambiguous` is `AmbiguousProjectionPathError`
(carrying the two colliding paths of its message), `fieldsNotObject` is
`InvalidProjectionShapeError` and `inconsistentOperator` is
`InconsistentOperatorError`. -/
inductive MError : Type where
  | fieldsNotObject : MError
  | unsupportedDollarOp : MError
  | unsupportedProjectionOps : MError
  | invalidProjectionValue : MError
  | mixedIncludingExcluding : MError
  | ambiguous (currentPath anotherPath : String) : MError
  | inconsistentOperator : MError
deriving DecidableEq

/-! ## Type classification primitives (source file part_001) -/

/-- `EJSON.isBinary`: binary (typed-array) values. -/
def isBinary : Val → Bool
  | .vbin _ => true
  | _ => false

/-- Like `_.isArray`, but excluding binary values (polyfilled typed
arrays). -/
def isArray (x : Val) : Bool := jsIsArray x && !isBinary x

/-- Modelled from the spec: `isPlainObject` delegates to the canonical type
discriminant `Selector._f._type` of the external value-matching engine
(`./selector`, not under `src/`), which classifies a value as a
nested-document object (type 3) exactly when it is a plain object —
explicitly distinguishing it from arrays, binary blobs, regular-expression
values and primitives. -/
def isPlainObject : Val → Bool
  | .vobj _ _ => true
  | _ => false

/-- `isIndexable`: array or plain object. -/
def isIndexable (x : Val) : Bool := isArray x || isPlainObject x

/-- `isNumericKey`: a string of decimal digits only (`/^[0-9]+$/`). -/
def isNumericKey (s : String) : Bool :=
  s.length > 0 && s.data.all (fun c => c.isDigit)

/-- JavaScript `selKey.substr(0, 1) === '$'`. -/
def firstCharDollar (s : String) : Bool := s.data.take 1 == ['$']

/-- Loop of `isOperatorObject` over the selector's keys, carrying the
`theseAreOperators` state (`none` = JS `undefined`). -/
def isOperatorObjectLoop (inconsistentOK : Bool) :
    List (String × Val) → Option Bool → Except MError (Option Bool)
  | [], st => .ok st
  | (selKey, _) :: rest, st =>
    let thisIsOperator := firstCharDollar selKey
    match st with
    | none => isOperatorObjectLoop inconsistentOK rest (some thisIsOperator)
    | some t =>
      if t != thisIsOperator then
        if !inconsistentOK then .error .inconsistentOperator
        else isOperatorObjectLoop inconsistentOK rest (some false)
      else isOperatorObjectLoop inconsistentOK rest (some t)

/-- `isOperatorObject(valueSelector, inconsistentOK)`: true iff the value is
a non-empty plain object all of whose keys begin with `$`; throws on mixed
keys unless `inconsistentOK`. -/
def isOperatorObject (valueSelector : Val) (inconsistentOK : Bool) :
    Except MError Bool :=
  if !isPlainObject valueSelector then .ok false
  else
    match valueSelector with
    | .vobj _ fs =>
      match isOperatorObjectLoop inconsistentOK fs none with
      | .ok st => .ok (st.getD false)
      | .error e => .error e
    | _ => .ok false

/-! ## Path and string utilities -/

/-- Accumulating worker for `split('.')` over the character list. -/
def splitSegsAux : List Char → List Char → List String
  | [], acc => [String.mk acc.reverse]
  | c :: cs, acc =>
    if c == '.' then String.mk acc.reverse :: splitSegsAux cs []
    else splitSegsAux cs (c :: acc)

/-- `keyPath.split('.')` (JavaScript `String.prototype.split` with a
one-character separator: always at least one, possibly empty, segment). -/
def splitPath (s : String) : List String := splitSegsAux s.data []

/-- `segments.join('.')` (`pathArr.slice(0, idx + 1).join('.')`). -/
def joinPath : List String → String
  | [] => ""
  | [s] => s
  | s :: s2 :: rest => s ++ "." ++ joinPath (s2 :: rest)

/-- Code-unit comparison of strings as JavaScript's default array sort
does, as a boolean on character lists. -/
def charsLe : List Char → List Char → Bool
  | [], _ => true
  | _ :: _, [] => false
  | c :: cs, d :: ds =>
    if c.toNat < d.toNat then true
    else if d.toNat < c.toNat then false
    else charsLe cs ds

/-- String order used by `_.keys(fields).sort()`. -/
def strLe (s t : String) : Bool := charsLe s.data t.data

/-- Insertion into a sorted list. -/
def insertSorted (x : String) : List String → List String
  | [] => [x]
  | y :: ys => if strLe x y then x :: y :: ys else y :: insertSorted x ys

/-- `keys.sort()`: sorting in code-unit order. -/
def sortStrings : List String → List String
  | [] => []
  | x :: xs => insertSorted x (sortStrings xs)

/-! ## Specification validation (`_checkSupportedProjection`) -/

/-- Test for the accepted projection literals: `_.indexOf([1, 0, true,
false], val)` with strict equality. -/
def isAcceptedProjectionValue : Val → Bool
  | .vnum n => n == 1 || n == 0
  | .vbool _ => true
  | _ => false

/-- Check of one `(keyPath, val)` pair of the specification. -/
def checkProjectionPair (keyPath : String) (val : Val) : Except MError Unit :=
  if (splitPath keyPath).contains "$" then
    .error .unsupportedDollarOp
  else if jsTypeofObject val &&
      !((["$elemMatch", "$meta", "$slice"].filter
          (fun o => (jsKeys val).contains o)).isEmpty) then
    .error .unsupportedProjectionOps
  else if !isAcceptedProjectionValue val then
    .error .invalidProjectionValue
  else .ok ()

/-- Loop of `_checkSupportedProjection` over the spec's pairs in property
order. -/
def checkProjectionPairs : List (String × Val) → Except MError Unit
  | [] => .ok ()
  | (k, v) :: rest =>
    match checkProjectionPair k v with
    | .ok _ => checkProjectionPairs rest
    | .error e => .error e

/-- `_checkSupportedProjection(fields)`. -/
def checkSupportedProjection (fields : Val) : Except MError Unit :=
  if !jsIsObject fields || jsIsArray fields then
    .error .fieldsNotObject
  else
    match fields with
    | .vobj _ fs => checkProjectionPairs fs
    | _ => .ok ()

/-! ## Generic path-tree builder (`pathsToTree`) -/

/-- Lookup of a child in a tree node's children. -/
def getChild : List (String × RuleTree) → String → Option RuleTree
  | [], _ => none
  | (k, t) :: rest, key => if k == key then some t else getChild rest key

/-- Update of a child (replace in place, or append when absent). -/
def setChild : List (String × RuleTree) → String → RuleTree → List (String × RuleTree)
  | [], key, t => [(key, t)]
  | (k, u) :: rest, key, t =>
    if k == key then (k, t) :: rest else (k, u) :: setChild rest key t

/-- Insertion of one dotted path (already split into segments, with the
segments consumed so far accumulated for conflict messages) into a tree.
At an intermediate segment a missing child becomes a fresh node and an
existing leaf triggers `conflictFn`; if the conflict resolution is not
itself a node the path is abandoned (the resolution stays in the tree).
At the final segment a missing child becomes `newLeafFn keyPath` and an
existing child (leaf or node) is
replaced by the conflict resolution. -/
def insertPath (newLeafFn : String → Option Bool)
    (conflictFn : RuleTree → String → String → Except MError RuleTree)
    (keyPath : String) :
    List String → List String → List (String × RuleTree) →
      Except MError (List (String × RuleTree))
  | _, [], cs => .ok cs
  | _, [lastKey], cs =>
    match getChild cs lastKey with
    | none => .ok (setChild cs lastKey (.leaf (newLeafFn keyPath)))
    | some existing =>
      match conflictFn existing keyPath keyPath with
      | .ok r => .ok (setChild cs lastKey r)
      | .error e => .error e
  | consumed, key :: seg2 :: more, cs =>
    match getChild cs key with
    | none =>
      match insertPath newLeafFn conflictFn keyPath
          (consumed ++ [key]) (seg2 :: more) [] with
      | .ok sub => .ok (setChild cs key (.node sub))
      | .error e => .error e
    | some (.node sub) =>
      match insertPath newLeafFn conflictFn keyPath
          (consumed ++ [key]) (seg2 :: more) sub with
      | .ok sub' => .ok (setChild cs key (.node sub'))
      | .error e => .error e
    | some (.leaf v) =>
      match conflictFn (.leaf v) (joinPath (consumed ++ [key])) keyPath with
      | .ok (.node sub) =>
        match insertPath newLeafFn conflictFn keyPath
            (consumed ++ [key]) (seg2 :: more) sub with
        | .ok sub' => .ok (setChild cs key (.node sub'))
        | .error e => .error e
      | .ok (.leaf w) => .ok (setChild cs key (.leaf w))
      | .error e => .error e

/-- `pathsToTree(paths, newLeafFn, conflictFn, tree)`: folds every path into
the tree; a throw from `conflictFn` aborts the whole construction. -/
def pathsToTree (paths : List String) (newLeafFn : String → Option Bool)
    (conflictFn : RuleTree → String → String → Except MError RuleTree)
    (tree : List (String × RuleTree)) :
    Except MError (List (String × RuleTree)) :=
  match paths with
  | [] => .ok tree
  | p :: rest =>
    match insertPath newLeafFn conflictFn p [] (splitPath p) tree with
    | .ok tree' => pathsToTree rest newLeafFn conflictFn tree'
    | .error e => .error e

/-! ## Mode resolution (`projectionDetails`) -/

/-- Result of `projectionDetails`: the rule tree over the non-`_id` keys
(`_id` exceptions aside) and the resolved projection mode (`none` =
JS `null`, unknown). -/
structure Details where
  tree : List (String × RuleTree)
  including : Option Bool

/-- Walk of the sorted working keys fixing `including` from the first key's
truthiness and failing on any later key whose truthiness differs. -/
def resolveIncluding (fields : Val) :
    List String → Option Bool → Except MError (Option Bool)
  | [], inc => .ok inc
  | keyPath :: rest, inc =>
    let rule := jsTruthy ((getKey fields keyPath).getD .vnull)
    let inc' := match inc with
      | none => some rule
      | some b => some b
    if inc' != some rule then .error .mixedIncludingExcluding
    else resolveIncluding fields rest inc'

/-- The working key set: all spec keys sorted; `_id` is dropped unless it is
the only key or its value is truthy. -/
def workingKeys (fields : Val) : List String :=
  let fieldsKeys := sortStrings (jsKeys fields)
  if fieldsKeys.length > 0 &&
      !(fieldsKeys == ["_id"]) &&
      !(fieldsKeys.contains "_id" &&
        jsTruthy ((getKey fields "_id").getD .vnull)) then
    fieldsKeys.filter (fun k => k != "_id")
  else fieldsKeys

/-- Conflict handler of the projection compiler: unconditionally throws
`AmbiguousProjectionPathError` naming both colliding paths. -/
def projConflict : RuleTree → String → String → Except MError RuleTree :=
  fun _ path fullPath => .error (.ambiguous fullPath path)

/-- `projectionDetails(fields)`. -/
def projectionDetails (fields : Val) : Except MError Details :=
  let fieldsKeys := workingKeys fields
  match resolveIncluding fields fieldsKeys none with
  | .error e => .error e
  | .ok including =>
    match pathsToTree fieldsKeys (fun _ => including) projConflict [] with
    | .error e => .error e
    | .ok tree => .ok ⟨tree, including⟩

/-! ## The compiled transform (`_compileProjection`) -/

mutual
/-- The `transform(doc, ruleTree)` closure: arrays are mapped elementwise;
otherwise the result starts from `{}` (inclusive mode) or a deep clone of
the document, and each tree child is applied in tree order. -/
def transform (incl : Option Bool) : Val → List (String × RuleTree) → Val
  | .varr _ elems, ruleTree => .varr 0 (transformElems incl elems ruleTree)
  | doc, ruleTree =>
    let base : Val := if incl == some true then .vobj 0 [] else clone doc
    transformFields incl doc ruleTree base
termination_by doc ruleTree => (sizeOf ruleTree, sizeOf doc, 2)

def transformElems (incl : Option Bool) :
    List Val → List (String × RuleTree) → List Val
  | [], _ => []
  | e :: es, ruleTree =>
    transform incl e ruleTree :: transformElems incl es ruleTree
termination_by es ruleTree => (sizeOf ruleTree, sizeOf es, 2)

/-- The `_.each(ruleTree, ...)` loop: a key absent from the document is
skipped; a node rule descends only when `doc[key]` is an object in the
`_.isObject` sense; a leaf rule copies a clone (inclusive) or deletes the
key (exclusive). -/
def transformFields (incl : Option Bool) :
    Val → List (String × RuleTree) → Val → Val
  | _, [], res => res
  | doc, (key, rule) :: rest, res =>
    let res' : Val :=
      if hasKey doc key then
        match rule with
        | .node sub =>
          match getKey doc key with
          | some v =>
            if jsIsObject v then setKey res key (transform incl v sub) else res
          | none => res
        | .leaf _ =>
          if incl == some true then
            match getKey doc key with
            | some v => setKey res key (clone v)
            | none => res
          else delKey res key
      else res
    transformFields incl doc rest res'
termination_by doc ruleTree _res => (sizeOf ruleTree, sizeOf doc, 1)
end

/-- The compiled projection: the `_id` inclusion flag (`true` when the spec
leaves `_id` undefined, else the truthiness of the spec's `_id` value) and
the derived details. -/
structure Projection where
  idProjection : Bool
  details : Details

/-- `_compileProjection(fields)`: validation, the `_id` flag, and
`projectionDetails`. -/
def compileProjection (fields : Val) : Except MError Projection :=
  match checkSupportedProjection fields with
  | .error e => .error e
  | .ok _ =>
    let idP := match getKey fields "_id" with
      | none => true
      | some v => jsTruthy v
    match projectionDetails fields with
    | .error e => .error e
    | .ok d => .ok ⟨idP, d⟩

/-- The returned closure: the rule-tree pass, then the `_id` rule — when
`_id` is to be included and the input has it, it is forced into the result
by plain assignment (no clone); when it is to be excluded it is force
removed. -/
def applyProjection (p : Projection) (obj : Val) : Val :=
  let res := transform p.details.including obj p.details.tree
  let res1 :=
    if p.idProjection && hasKey obj "_id" then
      setKey res "_id" ((getKey obj "_id").getD .vnull)
    else res
  if !p.idProjection && hasKey res1 "_id" then delKey res1 "_id" else res1

/-! ## Basic lemmas about property access and cloning -/

theorem getField_setField_self (fs : List (String × Val)) (k : String) (v : Val) :
    getField (setField fs k v) k = some v := by
  induction fs with
  | nil => simp [setField, getField]
  | cons p rest ih =>
    obtain ⟨k', w⟩ := p
    by_cases h : k' = k
    · subst h; simp [setField, getField]
    · simp [setField, getField, h, ih]

theorem getField_setField_ne (fs : List (String × Val)) (k k' : String) (v : Val)
    (h : k' ≠ k) : getField (setField fs k v) k' = getField fs k' := by
  induction fs with
  | nil =>
    have : ¬(k = k') := fun e => h e.symm
    simp [setField, getField, this]
  | cons p rest ih =>
    obtain ⟨k0, w⟩ := p
    by_cases h0 : k0 = k
    · subst h0
      have : ¬(k0 = k') := fun e => h e.symm
      simp [setField, getField, this]
    · simp [setField, getField, h0, ih]

theorem getField_filterKey_self (fs : List (String × Val)) (k : String) :
    getField (fs.filter (fun p => p.1 != k)) k = none := by
  induction fs with
  | nil => simp [getField]
  | cons p rest ih =>
    obtain ⟨k0, w⟩ := p
    by_cases h0 : k0 = k
    · subst h0; simpa using ih
    · have h1 : (k0 != k) = true := by simp [h0]
      simp [List.filter_cons, h1, getField, h0, ih]

theorem getField_filterKey_ne (fs : List (String × Val)) (k k' : String)
    (h : k' ≠ k) : getField (fs.filter (fun p => p.1 != k)) k' = getField fs k' := by
  induction fs with
  | nil => simp [getField]
  | cons p rest ih =>
    obtain ⟨k0, w⟩ := p
    by_cases h0 : k0 = k
    · subst h0
      have : ¬(k0 = k') := fun e => h e.symm
      simp [List.filter_cons, getField, this, ih]
    · have h1 : (k0 != k) = true := by simp [h0]
      simp [List.filter_cons, h1, getField, ih]

theorem getField_cloneFields (fs : List (String × Val)) (k : String) :
    getField (cloneFields fs) k = (getField fs k).map clone := by
  induction fs with
  | nil => simp [cloneFields, getField]
  | cons p rest ih =>
    obtain ⟨k0, w⟩ := p
    by_cases h0 : k0 == k
    · simp [cloneFields, getField, h0]
    · simp only [cloneFields, getField, h0, Bool.false_eq_true, if_false, ih]

theorem length_cloneFields (fs : List (String × Val)) :
    (cloneFields fs).length = fs.length := by
  induction fs with
  | nil => rfl
  | cons p rest ih => obtain ⟨k0, w⟩ := p; simp [cloneFields, ih]

theorem keys_cloneFields (fs : List (String × Val)) :
    (cloneFields fs).map Prod.fst = fs.map Prod.fst := by
  induction fs with
  | nil => rfl
  | cons p rest ih => obtain ⟨k0, w⟩ := p; simp [cloneFields, ih]

mutual
theorem mutIds_clone : ∀ (v : Val), ∀ i ∈ mutIds (clone v), i = 0
  | .vnull => by simp [clone, mutIds]
  | .vbool _ => by simp [clone, mutIds]
  | .vnum _ => by simp [clone, mutIds]
  | .vstr _ => by simp [clone, mutIds]
  | .vdate _ => by simp [clone, mutIds]
  | .vregex _ => by simp [clone, mutIds]
  | .vbin _ => by simp [clone, mutIds]
  | .varr id es => by
    simp only [clone, mutIds, List.mem_cons]
    rintro i (rfl | h)
    · rfl
    · exact mutIds_cloneList es i h
  | .vobj id fs => by
    simp only [clone, mutIds, List.mem_cons]
    rintro i (rfl | h)
    · rfl
    · exact mutIds_cloneFields fs i h

theorem mutIds_cloneList : ∀ (l : List Val), ∀ i ∈ mutIdsList (cloneList l), i = 0
  | [] => by simp [cloneList, mutIdsList]
  | v :: rest => by
    simp only [cloneList, mutIdsList, List.mem_append]
    rintro i (h | h)
    · exact mutIds_clone v i h
    · exact mutIds_cloneList rest i h

theorem mutIds_cloneFields : ∀ (fs : List (String × Val)),
    ∀ i ∈ mutIdsFields (cloneFields fs), i = 0
  | [] => by simp [cloneFields, mutIdsFields]
  | (k, v) :: rest => by
    simp only [cloneFields, mutIdsFields, List.mem_append]
    rintro i (h | h)
    · exact mutIds_clone v i h
    · exact mutIds_cloneFields rest i h
end

mutual
theorem clone_clone : ∀ (v : Val), clone (clone v) = clone v
  | .vnull => rfl
  | .vbool _ => rfl
  | .vnum _ => rfl
  | .vstr _ => rfl
  | .vdate _ => rfl
  | .vregex _ => rfl
  | .vbin _ => rfl
  | .varr id es => by simp [clone, cloneList_cloneList es]
  | .vobj id fs => by simp [clone, cloneFields_cloneFields fs]

theorem cloneList_cloneList : ∀ (l : List Val), cloneList (cloneList l) = cloneList l
  | [] => rfl
  | v :: rest => by simp [cloneList, clone_clone v, cloneList_cloneList rest]

theorem cloneFields_cloneFields : ∀ (fs : List (String × Val)),
    cloneFields (cloneFields fs) = cloneFields fs
  | [] => rfl
  | (k, v) :: rest => by simp [cloneFields, clone_clone v, cloneFields_cloneFields rest]
end

/-! ## Deep-equality lemmas -/

theorem mem_of_getField {fs : List (String × Val)} {k : String} {v : Val}
    (h : getField fs k = some v) : (k, v) ∈ fs := by
  induction fs with
  | nil => simp [getField] at h
  | cons p rest ih =>
    obtain ⟨k0, w⟩ := p
    by_cases h0 : k0 = k
    · subst h0
      simp only [getField, beq_self_eq_true, if_true, Option.some.injEq] at h
      subst h
      exact List.mem_cons_self _ _
    · simp only [getField, beq_iff_eq, h0, if_false] at h
      exact List.mem_cons_of_mem _ (ih h)

theorem getField_of_mem_nodup {fs : List (String × Val)} {k : String} {v : Val}
    (hn : nodupFields fs = true) (h : (k, v) ∈ fs) : getField fs k = some v := by
  induction fs with
  | nil => simp at h
  | cons p rest ih =>
    obtain ⟨k0, w⟩ := p
    simp only [nodupFields, Bool.and_eq_true, List.all_eq_true] at hn
    rcases List.mem_cons.mp h with h1 | h1
    · obtain ⟨e1, e2⟩ := Prod.mk.injEq .. ▸ h1
      · subst e1; subst e2; simp [getField]
    · have hne : k0 ≠ k := by
        intro e
        subst e
        have := hn.1 _ h1
        simp at this
      have : ¬(k0 = k) := hne
      simp only [getField, beq_iff_eq, this, if_false]
      exact ih hn.2 h1

theorem wfFields_of_mem {fs : List (String × Val)} {k : String} {v : Val}
    (hwf : wfFields fs = true) (h : (k, v) ∈ fs) : wf v = true := by
  induction fs with
  | nil => simp at h
  | cons p rest ih =>
    obtain ⟨k0, w⟩ := p
    simp only [wfFields, Bool.and_eq_true] at hwf
    rcases List.mem_cons.mp h with h1 | h1
    · obtain ⟨e1, e2⟩ := Prod.mk.injEq .. ▸ h1
      subst e2; exact hwf.1
    · exact ih hwf.2 h1

mutual
theorem deq_refl : ∀ (v : Val), wf v = true → deq v v = true
  | .vnull, _ => rfl
  | .vbool _, _ => by simp [deq]
  | .vnum _, _ => by simp [deq]
  | .vstr _, _ => by simp [deq]
  | .vdate _, _ => by simp [deq]
  | .vregex _, _ => by simp [deq]
  | .vbin _, _ => by simp [deq]
  | .varr i es, h => by
    simp only [wf] at h
    simpa [deq] using deqList_refl es h
  | .vobj i fs, h => by
    simp only [wf, Bool.and_eq_true] at h
    simp only [deq, Bool.and_eq_true, beq_self_eq_true, true_and]
    exact deqFields_getAll fs fs h.2
      (fun k v hm => getField_of_mem_nodup h.1 hm)

theorem deqList_refl : ∀ (l : List Val), wfList l = true → deqList l l = true
  | [], _ => rfl
  | v :: rest, h => by
    simp only [wfList, Bool.and_eq_true] at h
    simp only [deqList, Bool.and_eq_true]
    exact ⟨deq_refl v h.1, deqList_refl rest h.2⟩

theorem deqFields_getAll : ∀ (fs1 f2 : List (String × Val)),
    wfFields fs1 = true →
    (∀ k v, (k, v) ∈ fs1 → getField f2 k = some v) →
    deqFields fs1 f2 = true
  | [], _, _, _ => rfl
  | (k, v) :: rest, f2, hwf, hget => by
    simp only [wfFields, Bool.and_eq_true] at hwf
    have h1 : getField f2 k = some v := hget k v (List.mem_cons_self _ _)
    simp only [deqFields, h1, Bool.and_eq_true]
    exact ⟨deq_refl v hwf.1,
      deqFields_getAll rest f2 hwf.2 (fun k' v' hm => hget k' v' (List.mem_cons_of_mem _ hm))⟩
end

mutual
theorem deq_clone : ∀ (v : Val), wf v = true → deq (clone v) v = true
  | .vnull, _ => rfl
  | .vbool _, _ => by simp [clone, deq]
  | .vnum _, _ => by simp [clone, deq]
  | .vstr _, _ => by simp [clone, deq]
  | .vdate _, _ => by simp [clone, deq]
  | .vregex _, _ => by simp [clone, deq]
  | .vbin _, _ => by simp [clone, deq]
  | .varr i es, h => by
    simp only [wf] at h
    simpa [clone, deq] using deqList_clone es h
  | .vobj i fs, h => by
    simp only [wf, Bool.and_eq_true] at h
    simp only [clone, deq, Bool.and_eq_true, length_cloneFields, beq_self_eq_true, true_and]
    exact deqFields_cloneAll fs fs h.2
      (fun k v hm => getField_of_mem_nodup h.1 hm)

theorem deqList_clone : ∀ (l : List Val), wfList l = true → deqList (cloneList l) l = true
  | [], _ => rfl
  | v :: rest, h => by
    simp only [wfList, Bool.and_eq_true] at h
    simp only [cloneList, deqList, Bool.and_eq_true]
    exact ⟨deq_clone v h.1, deqList_clone rest h.2⟩

theorem deqFields_cloneAll : ∀ (fs1 f2 : List (String × Val)),
    wfFields fs1 = true →
    (∀ k v, (k, v) ∈ fs1 → getField f2 k = some v) →
    deqFields (cloneFields fs1) f2 = true
  | [], _, _, _ => rfl
  | (k, v) :: rest, f2, hwf, hget => by
    simp only [wfFields, Bool.and_eq_true] at hwf
    have h1 : getField f2 k = some v := hget k v (List.mem_cons_self _ _)
    simp only [cloneFields, deqFields, h1, Bool.and_eq_true]
    exact ⟨deq_clone v hwf.1,
      deqFields_cloneAll rest f2 hwf.2 (fun k' v' hm => hget k' v' (List.mem_cons_of_mem _ hm))⟩
end

/-! ## Lemmas about the compiled transform -/

/-- Plain-object test used purely in proofs. -/
def isObjVal : Val → Bool
  | .vobj _ _ => true
  | _ => false

theorem getKey_setKey_self (res : Val) (k : String) (v : Val) (h : isObjVal res = true) :
    getKey (setKey res k v) k = some v := by
  cases res <;> simp [isObjVal] at h <;> simp [setKey, getKey, getField_setField_self]

theorem getKey_setKey_ne (res : Val) (k k' : String) (v : Val) (h : k' ≠ k) :
    getKey (setKey res k v) k' = getKey res k' := by
  cases res <;> simp [setKey, getKey, getField_setField_ne _ _ _ _ h]

theorem getKey_delKey_self (res : Val) (k : String) :
    getKey (delKey res k) k = none := by
  cases res <;> simp [delKey, getKey, getField_filterKey_self]

theorem getKey_delKey_ne (res : Val) (k k' : String) (h : k ≠ k') :
    getKey (delKey res k') k = getKey res k := by
  cases res <;> simp [delKey, getKey, getField_filterKey_ne _ _ _ h]

theorem isObjVal_setKey (res : Val) (k : String) (v : Val) :
    isObjVal (setKey res k v) = isObjVal res := by
  cases res <;> simp [setKey, isObjVal]

theorem isObjVal_delKey (res : Val) (k : String) :
    isObjVal (delKey res k) = isObjVal res := by
  cases res <;> simp [delKey, isObjVal]

theorem getKey_clone (d : Val) (k : String) :
    getKey (clone d) k = (getKey d k).map clone := by
  cases d <;> simp [clone, getKey, getField_cloneFields]

theorem hasKey_clone (d : Val) (k : String) : hasKey (clone d) k = hasKey d k := by
  rw [hasKey, hasKey, getKey_clone]
  cases getKey d k <;> simp

/-- One step of the `_.each(ruleTree, ...)` loop. -/
def fieldStep (incl : Option Bool) (doc : Val) (key : String) (rule : RuleTree)
    (res : Val) : Val :=
  if hasKey doc key then
    match rule with
    | .node sub =>
      match getKey doc key with
      | some v =>
        if jsIsObject v then setKey res key (transform incl v sub) else res
      | none => res
    | .leaf _ =>
      if incl == some true then
        match getKey doc key with
        | some v => setKey res key (clone v)
        | none => res
      else delKey res key
  else res

theorem transformFields_cons (incl : Option Bool) (doc : Val) (key : String)
    (rule : RuleTree) (rest : List (String × RuleTree)) (res : Val) :
    transformFields incl doc ((key, rule) :: rest) res =
      transformFields incl doc rest (fieldStep incl doc key rule res) := by
  rw [transformFields.eq_def]
  rfl

theorem transformFields_nil (incl : Option Bool) (doc : Val) (res : Val) :
    transformFields incl doc [] res = res := by
  rw [transformFields.eq_def]

theorem isObjVal_fieldStep (incl : Option Bool) (doc : Val) (key : String)
    (rule : RuleTree) (res : Val) :
    isObjVal (fieldStep incl doc key rule res) = isObjVal res := by
  unfold fieldStep
  cases rule with
  | node sub =>
    cases h : getKey doc key
    · simp [hasKey, h]
    · simp only [hasKey, h, Option.isSome_some, if_true]
      split <;> simp [isObjVal_setKey]
  | leaf v =>
    cases h : getKey doc key
    · simp [hasKey, h]
    · simp only [hasKey, h, Option.isSome_some, if_true]
      split
      · simp [isObjVal_setKey]
      · simp [isObjVal_delKey]

theorem isObjVal_transformFields (incl : Option Bool) (doc : Val)
    (rt : List (String × RuleTree)) (res : Val) :
    isObjVal (transformFields incl doc rt res) = isObjVal res := by
  induction rt generalizing res with
  | nil => rw [transformFields_nil]
  | cons p rest ih =>
    obtain ⟨key, rule⟩ := p
    rw [transformFields_cons, ih, isObjVal_fieldStep]

theorem getKey_fieldStep_ne (incl : Option Bool) (doc : Val) (key : String)
    (rule : RuleTree) (res : Val) (k : String) (h : k ≠ key) :
    getKey (fieldStep incl doc key rule res) k = getKey res k := by
  unfold fieldStep
  cases rule with
  | node sub =>
    cases hg : getKey doc key
    · simp [hasKey, hg]
    · simp only [hasKey, hg, Option.isSome_some, if_true]
      split <;> simp [getKey_setKey_ne _ _ _ _ h]
  | leaf v =>
    cases hg : getKey doc key
    · simp [hasKey, hg]
    · simp only [hasKey, hg, Option.isSome_some, if_true]
      split
      · exact getKey_setKey_ne _ _ _ _ h
      · exact getKey_delKey_ne _ _ _ h

theorem getKey_transformFields_notMem (incl : Option Bool) (doc : Val)
    (rt : List (String × RuleTree)) (res : Val) (k : String)
    (h : ¬ k ∈ rt.map Prod.fst) :
    getKey (transformFields incl doc rt res) k = getKey res k := by
  induction rt generalizing res with
  | nil => rw [transformFields_nil]
  | cons p rest ih =>
    obtain ⟨key, rule⟩ := p
    simp only [List.map_cons, List.mem_cons] at h
    push_neg at h
    rw [transformFields_cons, ih _ h.2, getKey_fieldStep_ne _ _ _ _ _ _ h.1]

theorem transform_varr (incl : Option Bool) (i : Nat) (es : List Val)
    (rt : List (String × RuleTree)) :
    transform incl (.varr i es) rt = .varr 0 (transformElems incl es rt) := by
  rw [transform.eq_def]

theorem transform_nonarr (incl : Option Bool) (d : Val) (rt : List (String × RuleTree))
    (h : jsIsArray d = false) :
    transform incl d rt =
      transformFields incl d rt (if incl == some true then .vobj 0 [] else clone d) := by
  cases d
  case varr i es => simp [jsIsArray] at h
  all_goals rw [transform.eq_def]

theorem transformElems_nil (incl : Option Bool) (rt : List (String × RuleTree)) :
    transformElems incl [] rt = [] := by
  rw [transformElems.eq_def]

theorem transformElems_cons (incl : Option Bool) (e : Val) (es : List Val)
    (rt : List (String × RuleTree)) :
    transformElems incl (e :: es) rt =
      transform incl e rt :: transformElems incl es rt := by
  rw [transformElems.eq_def]

theorem transformElems_map (incl : Option Bool) (es : List Val)
    (rt : List (String × RuleTree)) :
    transformElems incl es rt = es.map (fun e => transform incl e rt) := by
  induction es with
  | nil => rw [transformElems_nil, List.map_nil]
  | cons e rest ih => rw [transformElems_cons, List.map_cons, ih]

theorem jsIsObject_of_isObjVal (v : Val) (h : isObjVal v = true) :
    jsIsObject v = true := by
  cases v <;> simp [isObjVal, jsIsObject] at h ⊢

theorem isObjVal_transform_incl (d : Val) (rt : List (String × RuleTree))
    (h : jsIsArray d = false) :
    isObjVal (transform (some true) d rt) = true := by
  rw [transform_nonarr _ _ _ h]
  rw [isObjVal_transformFields]
  rfl

theorem jsIsObject_transform_incl (d : Val) (rt : List (String × RuleTree)) :
    jsIsObject (transform (some true) d rt) = true := by
  cases hd : jsIsArray d with
  | true =>
    cases d <;> simp [jsIsArray] at hd
    rw [transform_varr]
    rfl
  | false =>
    exact jsIsObject_of_isObjVal _ (isObjVal_transform_incl d rt hd)

theorem hasKey_fieldStep_false (incl : Option Bool) (doc : Val) (key : String)
    (rule : RuleTree) (res : Val) (k : String)
    (hd : hasKey doc k = false) (hr : hasKey res k = false) :
    hasKey (fieldStep incl doc key rule res) k = false := by
  by_cases hk : k = key
  · subst hk
    unfold fieldStep
    rw [hd]
    exact hr
  · rw [hasKey, getKey_fieldStep_ne _ _ _ _ _ _ hk]
    exact hr

theorem hasKey_transformFields_false (incl : Option Bool) (doc : Val)
    (rt : List (String × RuleTree)) (res : Val) (k : String)
    (hd : hasKey doc k = false) (hr : hasKey res k = false) :
    hasKey (transformFields incl doc rt res) k = false := by
  induction rt generalizing res with
  | nil => rw [transformFields_nil]; exact hr
  | cons p rest ih =>
    obtain ⟨key, rule⟩ := p
    rw [transformFields_cons]
    exact ih _ (hasKey_fieldStep_false _ _ _ _ _ _ hd hr)

theorem hasKey_transform_false (incl : Option Bool) (d : Val)
    (rt : List (String × RuleTree)) (k : String) (hd : hasKey d k = false) :
    hasKey (transform incl d rt) k = false := by
  cases ha : jsIsArray d with
  | true =>
    cases d <;> simp [jsIsArray] at ha
    rw [transform_varr]
    rfl
  | false =>
    rw [transform_nonarr _ _ _ ha]
    apply hasKey_transformFields_false _ _ _ _ _ hd
    split
    · rfl
    · rw [hasKey_clone]; exact hd

theorem mutIds_setKey (res : Val) (k : String) (v : Val)
    (hres : ∀ j ∈ mutIds res, j = 0) (hv : ∀ j ∈ mutIds v, j = 0) :
    ∀ j ∈ mutIds (setKey res k v), j = 0 := by
  cases res with
  | vobj i fs =>
    intro j hj
    simp only [setKey, mutIds, List.mem_cons] at hj
    rcases hj with rfl | hj
    · exact hres _ (by simp [mutIds])
    · have : ∀ fs : List (String × Val), (∀ j ∈ mutIdsFields fs, j = 0) →
          j ∈ mutIdsFields (setField fs k v) → j = 0 := by
        intro fs
        induction fs with
        | nil =>
          intro _ hm
          simp only [setField, mutIdsFields, List.append_nil] at hm
          exact hv _ hm
        | cons p rest ih =>
          obtain ⟨k0, w⟩ := p
          intro hall hm
          by_cases h0 : k0 = k
          · subst h0
            simp only [setField, beq_self_eq_true, if_true, mutIdsFields,
              List.mem_append] at hm
            rcases hm with hm | hm
            · exact hv _ hm
            · exact hall _ (by simp [mutIdsFields, List.mem_append]; exact Or.inr hm)
          · simp only [setField, beq_iff_eq, h0, if_false, mutIdsFields,
              List.mem_append] at hm
            rcases hm with hm | hm
            · exact hall _ (by simp [mutIdsFields, List.mem_append]; exact Or.inl hm)
            · exact ih (fun j' hj' => hall j'
                (by simp [mutIdsFields, List.mem_append] at hj' ⊢; exact Or.inr hj')) hm
      exact this fs (fun j' hj' => hres j' (by simp [mutIds]; exact Or.inr hj')) hj
  | vnull => exact fun j hj => hres j hj
  | vbool b => exact fun j hj => hres j hj
  | vnum n => exact fun j hj => hres j hj
  | vstr s => exact fun j hj => hres j hj
  | vdate n => exact fun j hj => hres j hj
  | vregex s => exact fun j hj => hres j hj
  | vbin bs => exact fun j hj => hres j hj
  | varr i es => exact fun j hj => hres j hj

theorem mutIds_delKey (res : Val) (k : String)
    (hres : ∀ j ∈ mutIds res, j = 0) :
    ∀ j ∈ mutIds (delKey res k), j = 0 := by
  cases res with
  | vobj i fs =>
    intro j hj
    simp only [delKey, mutIds, List.mem_cons] at hj
    rcases hj with rfl | hj
    · exact hres _ (by simp [mutIds])
    · have : ∀ fs : List (String × Val), (∀ j ∈ mutIdsFields fs, j = 0) →
          j ∈ mutIdsFields (fs.filter (fun p => p.1 != k)) → j = 0 := by
        intro fs
        induction fs with
        | nil => intro _ hm; simp [mutIdsFields] at hm
        | cons p rest ih =>
          obtain ⟨k0, w⟩ := p
          intro hall hm
          rw [List.filter_cons] at hm
          by_cases h0 : (k0 != k) = true
          · rw [if_pos h0] at hm
            simp only [mutIdsFields, List.mem_append] at hm
            rcases hm with hm | hm
            · exact hall _ (by simp [mutIdsFields, List.mem_append]; exact Or.inl hm)
            · exact ih (fun j' hj' => hall j'
                (by simp [mutIdsFields, List.mem_append] at hj' ⊢; exact Or.inr hj')) hm
          · rw [if_neg h0] at hm
            exact ih (fun j' hj' => hall j'
              (by simp [mutIdsFields, List.mem_append] at hj' ⊢; exact Or.inr hj')) hm
      exact this fs (fun j' hj' => hres j' (by simp [mutIds]; exact Or.inr hj')) hj
  | vnull => exact fun j hj => hres j hj
  | vbool b => exact fun j hj => hres j hj
  | vnum n => exact fun j hj => hres j hj
  | vstr s => exact fun j hj => hres j hj
  | vdate n => exact fun j hj => hres j hj
  | vregex s => exact fun j hj => hres j hj
  | vbin bs => exact fun j hj => hres j hj
  | varr i es => exact fun j hj => hres j hj

theorem mutIds_fieldStep (incl : Option Bool) (doc : Val) (key : String)
    (rule : RuleTree) (res : Val)
    (hres : ∀ j ∈ mutIds res, j = 0)
    (htr : ∀ v sub, rule = .node sub → ∀ j ∈ mutIds (transform incl v sub), j = 0) :
    ∀ j ∈ mutIds (fieldStep incl doc key rule res), j = 0 := by
  unfold fieldStep
  split
  · split
    · split
      · split
        · apply mutIds_setKey _ _ _ hres
          apply htr _ _ rfl
        · exact hres
      · exact hres
    · split
      · split
        · exact mutIds_setKey _ _ _ hres (mutIds_clone _)
        · exact hres
      · exact mutIds_delKey _ _ hres
  · exact hres

mutual
theorem mutIds_transform : ∀ (incl : Option Bool) (d : Val)
    (rt : List (String × RuleTree)), ∀ j ∈ mutIds (transform incl d rt), j = 0
  | incl, .varr i es, rt => by
    rw [transform_varr]
    intro j hj
    simp only [mutIds, List.mem_cons] at hj
    rcases hj with rfl | hj
    · rfl
    · exact mutIds_transformElems incl es rt j hj
  | incl, .vnull, rt => by
    rw [transform_nonarr _ _ _ (by rfl)]
    refine mutIds_transformFields incl _ rt _ ?_
    split
    · simp [mutIds, mutIdsFields]
    · exact mutIds_clone _
  | incl, .vbool b, rt => by
    rw [transform_nonarr _ _ _ (by rfl)]
    refine mutIds_transformFields incl _ rt _ ?_
    split
    · simp [mutIds, mutIdsFields]
    · exact mutIds_clone _
  | incl, .vnum n, rt => by
    rw [transform_nonarr _ _ _ (by rfl)]
    refine mutIds_transformFields incl _ rt _ ?_
    split
    · simp [mutIds, mutIdsFields]
    · exact mutIds_clone _
  | incl, .vstr s, rt => by
    rw [transform_nonarr _ _ _ (by rfl)]
    refine mutIds_transformFields incl _ rt _ ?_
    split
    · simp [mutIds, mutIdsFields]
    · exact mutIds_clone _
  | incl, .vdate n, rt => by
    rw [transform_nonarr _ _ _ (by rfl)]
    refine mutIds_transformFields incl _ rt _ ?_
    split
    · simp [mutIds, mutIdsFields]
    · exact mutIds_clone _
  | incl, .vregex s, rt => by
    rw [transform_nonarr _ _ _ (by rfl)]
    refine mutIds_transformFields incl _ rt _ ?_
    split
    · simp [mutIds, mutIdsFields]
    · exact mutIds_clone _
  | incl, .vbin bs, rt => by
    rw [transform_nonarr _ _ _ (by rfl)]
    refine mutIds_transformFields incl _ rt _ ?_
    split
    · simp [mutIds, mutIdsFields]
    · exact mutIds_clone _
  | incl, .vobj i fs, rt => by
    rw [transform_nonarr _ _ _ (by rfl)]
    refine mutIds_transformFields incl _ rt _ ?_
    split
    · simp [mutIds, mutIdsFields]
    · exact mutIds_clone _
termination_by incl d rt => (sizeOf rt, sizeOf d, 2)

theorem mutIds_transformElems : ∀ (incl : Option Bool) (es : List Val)
    (rt : List (String × RuleTree)),
    ∀ j ∈ mutIdsList (transformElems incl es rt), j = 0
  | incl, [], rt => by
    rw [transformElems_nil]
    intro j hj
    simp [mutIdsList] at hj
  | incl, e :: rest, rt => by
    rw [transformElems_cons]
    intro j hj
    simp only [mutIdsList, List.mem_append] at hj
    rcases hj with hj | hj
    · exact mutIds_transform incl e rt j hj
    · exact mutIds_transformElems incl rest rt j hj
termination_by incl es rt => (sizeOf rt, sizeOf es, 2)

theorem mutIds_transformFields : ∀ (incl : Option Bool) (d : Val)
    (rt : List (String × RuleTree)) (res : Val),
    (∀ j ∈ mutIds res, j = 0) →
    ∀ j ∈ mutIds (transformFields incl d rt res), j = 0
  | incl, d, [], res, hres => by
    rw [transformFields_nil]
    exact hres
  | incl, d, (key, rule) :: rest, res, hres => by
    rw [transformFields_cons]
    refine mutIds_transformFields incl d rest _ ?_
    refine mutIds_fieldStep incl d key rule res hres ?_
    intro v sub hsub
    cases hsub
    exact mutIds_transform incl v sub
termination_by incl d rt res => (sizeOf rt, sizeOf d, 1)
end


mutual
theorem transform_none_nil : ∀ (d : Val), transform none d [] = clone d
  | .varr i es => by
    rw [transform_varr, transformElems_none_nil es]
    rfl
  | .vnull => by rw [transform_nonarr _ _ _ (by rfl), transformFields_nil]; rfl
  | .vbool b => by rw [transform_nonarr _ _ _ (by rfl), transformFields_nil]; rfl
  | .vnum n => by rw [transform_nonarr _ _ _ (by rfl), transformFields_nil]; rfl
  | .vstr s => by rw [transform_nonarr _ _ _ (by rfl), transformFields_nil]; rfl
  | .vdate n => by rw [transform_nonarr _ _ _ (by rfl), transformFields_nil]; rfl
  | .vregex s => by rw [transform_nonarr _ _ _ (by rfl), transformFields_nil]; rfl
  | .vbin bs => by rw [transform_nonarr _ _ _ (by rfl), transformFields_nil]; rfl
  | .vobj i fs => by rw [transform_nonarr _ _ _ (by rfl), transformFields_nil]; rfl

theorem transformElems_none_nil : ∀ (es : List Val),
    transformElems none es [] = cloneList es
  | [] => by rw [transformElems_nil]; rfl
  | e :: rest => by
    rw [transformElems_cons, transform_none_nil e, transformElems_none_nil rest]
    rfl
end

theorem mem_mutIds_setKey (res : Val) (k : String) (v : Val) (j : Nat)
    (h : j ∈ mutIds (setKey res k v)) : j ∈ mutIds res ∨ j ∈ mutIds v := by
  cases res with
  | vobj i fs =>
    simp only [setKey, mutIds, List.mem_cons] at h ⊢
    rcases h with rfl | h
    · exact Or.inl (Or.inl rfl)
    · have : ∀ fs : List (String × Val), j ∈ mutIdsFields (setField fs k v) →
          j ∈ mutIdsFields fs ∨ j ∈ mutIds v := by
        intro fs0
        induction fs0 with
        | nil =>
          intro hm
          simp only [setField, mutIdsFields, List.append_nil] at hm
          exact Or.inr hm
        | cons p rest ih =>
          obtain ⟨k0, w⟩ := p
          intro hm
          by_cases h0 : k0 = k
          · subst h0
            simp only [setField, beq_self_eq_true, if_true, mutIdsFields,
              List.mem_append] at hm
            rcases hm with hm | hm
            · exact Or.inr hm
            · exact Or.inl (by simp [mutIdsFields, List.mem_append]; exact Or.inr hm)
          · simp only [setField, beq_iff_eq, h0, if_false, mutIdsFields,
              List.mem_append] at hm
            rcases hm with hm | hm
            · exact Or.inl (by simp [mutIdsFields, List.mem_append]; exact Or.inl hm)
            · rcases ih hm with hh | hh
              · exact Or.inl (by simp [mutIdsFields, List.mem_append]; exact Or.inr hh)
              · exact Or.inr hh
      rcases this fs h with hh | hh
      · exact Or.inl (Or.inr hh)
      · exact Or.inr hh
  | vnull => exact Or.inl h
  | vbool b => exact Or.inl h
  | vnum n => exact Or.inl h
  | vstr s => exact Or.inl h
  | vdate n => exact Or.inl h
  | vregex s => exact Or.inl h
  | vbin bs => exact Or.inl h
  | varr i es => exact Or.inl h

theorem deqFields_forall : ∀ (fs1 f2 : List (String × Val)),
    (∀ k w, (k, w) ∈ fs1 → ∃ u, getField f2 k = some u ∧ deq w u = true) →
    deqFields fs1 f2 = true := by
  intro fs1
  induction fs1 with
  | nil => intro f2 _; rfl
  | cons p rest ih =>
    obtain ⟨k, w⟩ := p
    intro f2 hget
    obtain ⟨u, hu, hdeq⟩ := hget k w (List.mem_cons_self _ _)
    simp only [deqFields, hu, hdeq, Bool.true_and]
    exact ih f2 (fun k' w' hm => hget k' w' (List.mem_cons_of_mem _ hm))

theorem mem_cloneFields {fs : List (String × Val)} {k : String} {u : Val}
    (h : (k, u) ∈ cloneFields fs) : ∃ w, (k, w) ∈ fs ∧ u = clone w := by
  induction fs with
  | nil => simp [cloneFields] at h
  | cons p rest ih =>
    obtain ⟨k0, w0⟩ := p
    simp only [cloneFields, List.mem_cons] at h
    rcases h with h | h
    · obtain ⟨e1, e2⟩ := Prod.mk.injEq .. ▸ h
      subst e1
      exact ⟨w0, List.mem_cons_self _ _, e2⟩
    · obtain ⟨w, hw, he⟩ := ih h
      exact ⟨w, List.mem_cons_of_mem _ hw, he⟩

theorem nodupFields_cloneFields (fs : List (String × Val)) :
    nodupFields (cloneFields fs) = nodupFields fs := by
  induction fs with
  | nil => rfl
  | cons p rest ih =>
    obtain ⟨k0, w0⟩ := p
    simp only [cloneFields, nodupFields, ih]
    have : (cloneFields rest).all (fun p => p.1 != k0) = rest.all (fun p => p.1 != k0) := by
      clear ih
      induction rest with
      | nil => rfl
      | cons q rest2 ih2 =>
        obtain ⟨k1, w1⟩ := q
        simp only [cloneFields, List.all_cons, ih2]
    rw [this]

theorem length_setField_present (fs : List (String × Val)) (k : String) (v : Val)
    (h : (getField fs k).isSome = true) :
    (setField fs k v).length = fs.length := by
  induction fs with
  | nil => simp [getField] at h
  | cons p rest ih =>
    obtain ⟨k0, w0⟩ := p
    by_cases h0 : k0 = k
    · subst h0; simp [setField]
    · simp only [getField, beq_iff_eq, h0, if_false] at h
      simp [setField, h0, ih h]

theorem mem_setField_nodup {fs : List (String × Val)} {k k' : String} {v w' : Val}
    (hn : nodupFields fs = true) (h : (k', w') ∈ setField fs k v) :
    (k' = k ∧ w' = v) ∨ ((k', w') ∈ fs ∧ k' ≠ k) := by
  induction fs with
  | nil =>
    simp only [setField, List.mem_singleton] at h
    obtain ⟨e1, e2⟩ := Prod.mk.injEq .. ▸ h
    exact Or.inl ⟨e1, e2⟩
  | cons p rest ih =>
    obtain ⟨k0, w0⟩ := p
    simp only [nodupFields, Bool.and_eq_true, List.all_eq_true] at hn
    by_cases h0 : k0 = k
    · subst h0
      simp only [setField, beq_self_eq_true, if_true, List.mem_cons] at h
      rcases h with h | h
      · obtain ⟨e1, e2⟩ := Prod.mk.injEq .. ▸ h
        exact Or.inl ⟨e1, e2⟩
      · have hk : k' ≠ k0 := by
          have := hn.1 _ h
          simpa using this
        exact Or.inr ⟨List.mem_cons_of_mem _ h, hk⟩
    · simp only [setField, beq_iff_eq, h0, if_false, List.mem_cons] at h
      rcases h with h | h
      · obtain ⟨e1, e2⟩ := Prod.mk.injEq .. ▸ h
        subst e1; subst e2
        exact Or.inr ⟨List.mem_cons_self _ _, h0⟩
      · rcases ih hn.2 h with hh | hh
        · exact Or.inl hh
        · exact Or.inr ⟨List.mem_cons_of_mem _ hh.1, hh.2⟩

theorem mutIds_applyProjection (p : Projection) (d : Val) :
    ∀ j ∈ mutIds (applyProjection p d), j ≠ 0 →
    ∃ v, getKey d "_id" = some v ∧ j ∈ mutIds v := by
  intro j hj hne
  unfold applyProjection at hj
  have hres0 : ∀ i ∈ mutIds (transform p.details.including d p.details.tree), i = 0 :=
    mutIds_transform _ _ _
  by_cases hid : p.idProjection
  · simp only [hid, Bool.not_true, Bool.false_and, Bool.false_eq_true, if_false,
      Bool.true_and] at hj
    by_cases hhas : hasKey d "_id"
    · simp only [hhas, if_true] at hj
      rcases mem_mutIds_setKey _ _ _ _ hj with h | h
      · exact absurd (hres0 _ h) hne
      · obtain ⟨v, hv⟩ := Option.isSome_iff_exists.mp hhas
        refine ⟨v, hv, ?_⟩
        rw [hv] at h
        exact h
    · simp only [hhas, Bool.false_eq_true, if_false] at hj
      exact absurd (hres0 _ hj) hne
  · have hid' : p.idProjection = false := by simpa using hid
    simp only [hid', Bool.false_and, Bool.false_eq_true, if_false, Bool.not_false,
      Bool.true_and] at hj
    by_cases hhas : hasKey (transform p.details.including d p.details.tree) "_id"
    · simp only [hhas, if_true] at hj
      exact absurd (mutIds_delKey _ _ hres0 _ hj) hne
    · simp only [hhas, Bool.false_eq_true, if_false] at hj
      exact absurd (hres0 _ hj) hne

/-- Evaluation of the transform compiled from the empty spec on the document
`{_id: <object labelled 2>}` (labels 1 and 2 mark the input's own nodes). -/
theorem applyProjection_empty_eval :
    applyProjection ⟨true, ⟨[], none⟩⟩ (.vobj 1 [("_id", .vobj 2 [])]) =
      .vobj 0 [("_id", .vobj 2 [])] := by
  unfold applyProjection
  rw [transform_none_nil]
  rfl

/-- C1 (counterexample): the claim "the output shares no mutable
substructure with the input, including the identifier field's value" is
false.  The empty specification is valid, yet on `{_id: o}` with `o` a
(mutable, label 2) object, the compiled transform stores `o` itself in the
result by plain assignment (`res._id = obj._id`), so the result shares the
label-2 node with the input. -/
theorem c1_counterexample :
    compileProjection (.vobj 9 []) = .ok ⟨true, ⟨[], none⟩⟩ ∧
    applyProjection ⟨true, ⟨[], none⟩⟩ (.vobj 1 [("_id", .vobj 2 [])]) =
      .vobj 0 [("_id", .vobj 2 [])] ∧
    2 ∈ mutIds (Val.vobj 1 [("_id", .vobj 2 [])]) ∧
    2 ∈ mutIds (applyProjection ⟨true, ⟨[], none⟩⟩ (.vobj 1 [("_id", .vobj 2 [])])) ∧
    (2 : Nat) ≠ 0 := by
  refine ⟨rfl, applyProjection_empty_eval, by decide, ?_, by decide⟩
  rw [applyProjection_empty_eval]
  decide

/-- C1 (amended): mutating an object returned by the compiled transform
never changes the input document, except through the identifier field's
value, which (when retained) is placed into the result by reference rather
than cloned.  Formally: every identity label of a mutable node of the
output is either 0 (freshly allocated by the transform) or a label found
inside the input's `_id` value. -/
theorem c1_no_alias_outside_id (spec : Val) (p : Projection) (d : Val) (j : Nat)
    (hc : compileProjection spec = .ok p)
    (hj : j ∈ mutIds (applyProjection p d)) (hne : j ≠ 0) :
    ∃ v, getKey d "_id" = some v ∧ j ∈ mutIds v :=
  mutIds_applyProjection p d j hj hne

theorem c1_no_alias_outside_id_witness :
    ∃ v, getKey (Val.vobj 1 [("_id", .vobj 2 [])]) "_id" = some v ∧ 2 ∈ mutIds v :=
  c1_no_alias_outside_id (.vobj 9 []) ⟨true, ⟨[], none⟩⟩
    (.vobj 1 [("_id", .vobj 2 [])]) 2 rfl
    (by rw [applyProjection_empty_eval]; decide) (by decide)

theorem deq_setKey_cloneGet (d v : Val) (k : String)
    (hw : wf d = true) (hg : getKey d k = some v) :
    deq (setKey (clone d) k v) d = true := by
  cases d with
  | vobj i fs =>
    simp only [getKey] at hg
    simp only [wf, Bool.and_eq_true] at hw
    have hsome : (getField (cloneFields fs) k).isSome = true := by
      rw [getField_cloneFields, hg]
      rfl
    simp only [clone, setKey, deq, Bool.and_eq_true]
    constructor
    · rw [length_setField_present _ _ _ hsome, length_cloneFields]
      exact beq_self_eq_true _
    · apply deqFields_forall
      intro k' w' hm
      have hnc : nodupFields (cloneFields fs) = true := by
        rw [nodupFields_cloneFields]; exact hw.1
      rcases mem_setField_nodup hnc hm with ⟨e1, e2⟩ | ⟨hmem, hne⟩
      · subst e1
        refine ⟨v, hg, ?_⟩
        rw [e2]
        exact deq_refl v (wfFields_of_mem hw.2 (mem_of_getField hg))
      · obtain ⟨w, hwmem, he⟩ := mem_cloneFields hmem
        subst he
        refine ⟨w, getField_of_mem_nodup hw.1 hwmem, ?_⟩
        exact deq_clone w (wfFields_of_mem hw.2 hwmem)
  | vnull => simp [getKey] at hg
  | vbool b => simp [getKey] at hg
  | vnum n => simp [getKey] at hg
  | vstr s => simp [getKey] at hg
  | vdate n => simp [getKey] at hg
  | vregex s => simp [getKey] at hg
  | vbin bs => simp [getKey] at hg
  | varr i es => simp [getKey] at hg

/-- C7: the transform compiled from the empty specification `{}` is a
no-op up to deep equality: its mode is never resolved (`including` stays
`null`), so the rule-tree pass is a whole-document clone, and the default
`_id` rule re-installs the input's `_id`. -/
theorem c7_empty_spec_noop (i : Nat) (p : Projection) (d : Val)
    (hp : compileProjection (.vobj i []) = .ok p) (hd : wf d = true) :
    deq (applyProjection p d) d = true := by
  have hpe : p = ⟨true, ⟨[], none⟩⟩ := by
    have : compileProjection (.vobj i []) = .ok ⟨true, ⟨[], none⟩⟩ := rfl
    rw [this] at hp
    exact (Except.ok.inj hp).symm
  subst hpe
  unfold applyProjection
  rw [transform_none_nil]
  simp only [Bool.not_true, Bool.false_and, Bool.false_eq_true, if_false, Bool.true_and]
  by_cases hhas : hasKey d "_id"
  · simp only [hhas, if_true]
    obtain ⟨v, hv⟩ := Option.isSome_iff_exists.mp hhas
    rw [hv]
    exact deq_setKey_cloneGet d v "_id" hd hv
  · simp only [hhas, Bool.false_eq_true, if_false]
    exact deq_clone d hd

theorem c7_empty_spec_noop_witness :
    deq (applyProjection ⟨true, ⟨[], none⟩⟩
      (.vobj 1 [("_id", .vstr "x"), ("a", .vnum 1), ("b", .vnum 2)]))
      (.vobj 1 [("_id", .vstr "x"), ("a", .vnum 1), ("b", .vnum 2)]) = true :=
  c7_empty_spec_noop 9 ⟨true, ⟨[], none⟩⟩
    (.vobj 1 [("_id", .vstr "x"), ("a", .vnum 1), ("b", .vnum 2)]) rfl (by decide)

/-- C8: validation rejects malformed specifications with the specified
error kinds.  A first spec entry whose key has a `$` segment fails with the
positional-operator error; one whose value is an object carrying
`$elemMatch`/`$meta`/`$slice` fails with the projection-operator error
(both are `UnsupportedProjectionOperatorError` in the specification's
taxonomy); one whose value is not exactly `1`, `0`, `true` or `false`
fails with `InvalidProjectionValueError`.  The spec's three concrete
examples are also checked. -/
theorem c8_validation :
    (∀ (i : Nat) (k : String) (v : Val) (rest : List (String × Val)),
      (splitPath k).contains "$" = true →
      compileProjection (.vobj i ((k, v) :: rest)) = .error .unsupportedDollarOp) ∧
    (∀ (i : Nat) (k : String) (v : Val) (rest : List (String × Val)),
      (splitPath k).contains "$" = false →
      (jsTypeofObject v && !((["$elemMatch", "$meta", "$slice"].filter
        (fun o => (jsKeys v).contains o)).isEmpty)) = true →
      compileProjection (.vobj i ((k, v) :: rest)) = .error .unsupportedProjectionOps) ∧
    (∀ (i : Nat) (k : String) (v : Val) (rest : List (String × Val)),
      (splitPath k).contains "$" = false →
      (jsTypeofObject v && !((["$elemMatch", "$meta", "$slice"].filter
        (fun o => (jsKeys v).contains o)).isEmpty)) = false →
      isAcceptedProjectionValue v = false →
      compileProjection (.vobj i ((k, v) :: rest)) = .error .invalidProjectionValue) ∧
    compileProjection (.vobj 0 [("a.$", .vnum 1)]) = .error .unsupportedDollarOp ∧
    compileProjection (.vobj 0 [("a", .vobj 1 [("$slice", .vnum 1)])]) =
      .error .unsupportedProjectionOps ∧
    compileProjection (.vobj 0 [("a", .vstr "yes")]) = .error .invalidProjectionValue := by
  refine ⟨?_, ?_, ?_, rfl, rfl, rfl⟩
  · intro i k v rest h
    have hc : checkProjectionPair k v = .error .unsupportedDollarOp := by
      unfold checkProjectionPair
      rw [if_pos h]
    simp [compileProjection, checkSupportedProjection, jsIsObject, jsIsArray,
      checkProjectionPairs, hc]
  · intro i k v rest h1 h2
    have hc : checkProjectionPair k v = .error .unsupportedProjectionOps := by
      unfold checkProjectionPair
      rw [if_neg (by simp only [h1]; decide), if_pos h2]
    simp [compileProjection, checkSupportedProjection, jsIsObject, jsIsArray,
      checkProjectionPairs, hc]
  · intro i k v rest h1 h2 h3
    have hc : checkProjectionPair k v = .error .invalidProjectionValue := by
      unfold checkProjectionPair
      rw [if_neg (by simp only [h1]; decide), if_neg (by simp only [h2]; decide),
        if_pos (by simp only [h3]; decide)]
    simp [compileProjection, checkSupportedProjection, jsIsObject, jsIsArray,
      checkProjectionPairs, hc]

theorem c8_validation_witness :
    compileProjection (.vobj 0 [("x.$.y", .vbool true)]) = .error .unsupportedDollarOp ∧
    compileProjection (.vobj 0 [("b", .vobj 2 [("$elemMatch", .vnum 3)])]) =
      .error .unsupportedProjectionOps ∧
    compileProjection (.vobj 0 [("b", .vnull)]) = .error .invalidProjectionValue :=
  ⟨c8_validation.1 0 "x.$.y" (.vbool true) [] (by decide),
   c8_validation.2.1 0 "b" (.vobj 2 [("$elemMatch", .vnum 3)]) [] (by decide) (by decide),
   c8_validation.2.2.1 0 "b" .vnull [] (by decide) (by decide) (by decide)⟩

/-! ## Lemmas about the operator-object loop -/

theorem loop_all_dollar_someTrue : ∀ (fs : List (String × Val)) (ok : Bool),
    (∀ p ∈ fs, firstCharDollar p.1 = true) →
    isOperatorObjectLoop ok fs (some true) = .ok (some true) := by
  intro fs
  induction fs with
  | nil => intro ok _; rfl
  | cons p rest ih =>
    obtain ⟨k0, v0⟩ := p
    intro ok hall
    have h0 : firstCharDollar k0 = true := hall _ (List.mem_cons_self _ _)
    simp only [isOperatorObjectLoop, h0]
    simpa using ih ok (fun q hq => hall q (List.mem_cons_of_mem _ hq))

theorem loop_all_dollar_none : ∀ (fs : List (String × Val)) (ok : Bool),
    (∀ p ∈ fs, firstCharDollar p.1 = true) →
    isOperatorObjectLoop ok fs none =
      .ok (if fs.isEmpty then none else some true) := by
  intro fs ok hall
  cases fs with
  | nil => rfl
  | cons p rest =>
    obtain ⟨k0, v0⟩ := p
    have h0 : firstCharDollar k0 = true := hall _ (List.mem_cons_self _ _)
    simp only [isOperatorObjectLoop, h0, List.isEmpty_cons, if_false]
    exact loop_all_dollar_someTrue rest ok (fun q hq => hall q (List.mem_cons_of_mem _ hq))

theorem loop_someFalse_ne_someTrue : ∀ (fs : List (String × Val)) (ok : Bool),
    isOperatorObjectLoop ok fs (some false) ≠ .ok (some true) := by
  intro fs
  induction fs with
  | nil => intro ok h; simp [isOperatorObjectLoop] at h
  | cons p rest ih =>
    obtain ⟨k0, v0⟩ := p
    intro ok h
    by_cases h0 : firstCharDollar k0 = true
    · simp only [isOperatorObjectLoop, h0] at h
      split at h
      · split at h
        · simp at h
        · exact ih ok h
      · exact ih ok h
    · have h0f : firstCharDollar k0 = false := by simpa using h0
      simp only [isOperatorObjectLoop, h0f] at h
      exact ih ok h

theorem loop_someTrue_all_dollar : ∀ (fs : List (String × Val)) (ok : Bool),
    isOperatorObjectLoop ok fs (some true) = .ok (some true) →
    ∀ p ∈ fs, firstCharDollar p.1 = true := by
  intro fs
  induction fs with
  | nil => intro ok _ p hp; simp at hp
  | cons q rest ih =>
    obtain ⟨k0, v0⟩ := q
    intro ok h p hp
    by_cases h0 : firstCharDollar k0 = true
    · simp only [isOperatorObjectLoop, h0] at h
      rcases List.mem_cons.mp hp with rfl | hp'
      · exact h0
      · exact ih ok (by simpa using h) p hp'
    · have h0f : firstCharDollar k0 = false := by simpa using h0
      simp only [isOperatorObjectLoop, h0f] at h
      cases ok with
      | false => simp at h
      | true =>
        simp at h
        exact absurd h (loop_someFalse_ne_someTrue rest true)

theorem loop_none_ok_someTrue_all_dollar (fs : List (String × Val)) (ok : Bool)
    (h : isOperatorObjectLoop ok fs none = .ok (some true)) :
    ∀ p ∈ fs, firstCharDollar p.1 = true := by
  cases fs with
  | nil => intro p hp; simp at hp
  | cons q rest =>
    obtain ⟨k0, v0⟩ := q
    intro p hp
    by_cases h0 : firstCharDollar k0 = true
    · simp only [isOperatorObjectLoop, h0] at h
      rcases List.mem_cons.mp hp with rfl | hp'
      · exact h0
      · exact loop_someTrue_all_dollar rest ok h p hp'
    · have h0f : firstCharDollar k0 = false := by simpa using h0
      simp only [isOperatorObjectLoop, h0f] at h
      exact absurd h (loop_someFalse_ne_someTrue rest ok)

theorem loop_mixed_error : ∀ (fs : List (String × Val)) (b : Bool),
    (∃ p ∈ fs, firstCharDollar p.1 = !b) →
    isOperatorObjectLoop false fs (some b) = .error .inconsistentOperator := by
  intro fs
  induction fs with
  | nil => intro b ⟨p, hp, _⟩; simp at hp
  | cons q rest ih =>
    obtain ⟨k0, v0⟩ := q
    intro b ⟨p, hp, hps⟩
    by_cases h0 : firstCharDollar k0 = b
    · have hne : (b != firstCharDollar k0) = false := by simp [h0]
      simp only [isOperatorObjectLoop, hne, Bool.false_eq_true, if_false]
      apply ih b
      rcases List.mem_cons.mp hp with rfl | hp'
      · rw [h0] at hps
        cases b <;> simp at hps
      · exact ⟨p, hp', hps⟩
    · have h0' : firstCharDollar k0 = !b := by
        cases hb : firstCharDollar k0 <;> cases b <;> simp_all
      have hne : (b != firstCharDollar k0) = true := by simp [h0']
      simp only [isOperatorObjectLoop, hne, if_true, Bool.not_false, if_pos rfl]

theorem loop_someFalse_ok : ∀ (fs : List (String × Val)),
    isOperatorObjectLoop true fs (some false) = .ok (some false) := by
  intro fs
  induction fs with
  | nil => rfl
  | cons q rest ih =>
    obtain ⟨k0, v0⟩ := q
    by_cases h0 : firstCharDollar k0 = true
    · have hne : (false != firstCharDollar k0) = true := by simp [h0]
      simp only [isOperatorObjectLoop, hne, if_true, Bool.not_true, Bool.false_eq_true,
        if_false]
      exact ih
    · have h0f : firstCharDollar k0 = false := by simpa using h0
      have hne : (false != firstCharDollar k0) = false := by simp [h0f]
      simp only [isOperatorObjectLoop, hne, Bool.false_eq_true, if_false]
      exact ih

theorem loop_mixed_ok_false : ∀ (fs : List (String × Val)) (b : Bool),
    (∃ p ∈ fs, firstCharDollar p.1 = !b) →
    isOperatorObjectLoop true fs (some b) = .ok (some false) := by
  intro fs
  induction fs with
  | nil => intro b ⟨p, hp, _⟩; simp at hp
  | cons q rest ih =>
    obtain ⟨k0, v0⟩ := q
    intro b ⟨p, hp, hps⟩
    by_cases h0 : firstCharDollar k0 = b
    · have hne : (b != firstCharDollar k0) = false := by simp [h0]
      simp only [isOperatorObjectLoop, hne, Bool.false_eq_true, if_false]
      apply ih b
      rcases List.mem_cons.mp hp with rfl | hp'
      · rw [h0] at hps
        cases b <;> simp at hps
      · exact ⟨p, hp', hps⟩
    · have h0' : firstCharDollar k0 = !b := by
        cases hb : firstCharDollar k0 <;> cases b <;> simp_all
      have hne : (b != firstCharDollar k0) = true := by simp [h0']
      simp only [isOperatorObjectLoop, hne, if_true, Bool.not_true, Bool.false_eq_true,
        if_false]
      exact loop_someFalse_ok rest

theorem loop_none_mixed_error (fs : List (String × Val))
    (h1 : ∃ p ∈ fs, firstCharDollar p.1 = true)
    (h2 : ∃ p ∈ fs, firstCharDollar p.1 = false) :
    isOperatorObjectLoop false fs none = .error .inconsistentOperator := by
  cases fs with
  | nil => obtain ⟨p, hp, _⟩ := h1; simp at hp
  | cons q rest =>
    obtain ⟨k0, v0⟩ := q
    simp only [isOperatorObjectLoop]
    apply loop_mixed_error rest (firstCharDollar k0)
    cases hb : firstCharDollar k0 with
    | true =>
      obtain ⟨p, hp, hps⟩ := h2
      rcases List.mem_cons.mp hp with rfl | hp'
      · rw [hb] at hps; simp at hps
      · exact ⟨p, hp', by simp [hps]⟩
    | false =>
      obtain ⟨p, hp, hps⟩ := h1
      rcases List.mem_cons.mp hp with rfl | hp'
      · rw [hb] at hps; simp at hps
      · exact ⟨p, hp', by simp [hps]⟩

theorem loop_none_mixed_ok (fs : List (String × Val))
    (h1 : ∃ p ∈ fs, firstCharDollar p.1 = true)
    (h2 : ∃ p ∈ fs, firstCharDollar p.1 = false) :
    isOperatorObjectLoop true fs none = .ok (some false) := by
  cases fs with
  | nil => obtain ⟨p, hp, _⟩ := h1; simp at hp
  | cons q rest =>
    obtain ⟨k0, v0⟩ := q
    simp only [isOperatorObjectLoop]
    apply loop_mixed_ok_false rest (firstCharDollar k0)
    cases hb : firstCharDollar k0 with
    | true =>
      obtain ⟨p, hp, hps⟩ := h2
      rcases List.mem_cons.mp hp with rfl | hp'
      · rw [hb] at hps; simp at hps
      · exact ⟨p, hp', by simp [hps]⟩
    | false =>
      obtain ⟨p, hp, hps⟩ := h1
      rcases List.mem_cons.mp hp with rfl | hp'
      · rw [hb] at hps; simp at hps
      · exact ⟨p, hp', by simp [hps]⟩

/-- C9: `isOperatorObject(x, inconsistentOK)` returns `true` exactly when
`x` is a non-empty plain object all of whose keys begin with `$`; on a
plain object mixing `$`-prefixed and unprefixed keys it throws
`InconsistentOperatorError` when `inconsistentOK` is false and returns
`false` without failing when `inconsistentOK` is true. -/
theorem c9_isOperatorObject (x : Val) (inconsistentOK : Bool) :
    (isOperatorObject x inconsistentOK = .ok true ↔
      (isPlainObject x = true ∧ jsKeys x ≠ [] ∧
        ∀ k ∈ jsKeys x, firstCharDollar k = true)) ∧
    (isPlainObject x = true →
     (∃ k1 ∈ jsKeys x, firstCharDollar k1 = true) →
     (∃ k2 ∈ jsKeys x, firstCharDollar k2 = false) →
     (isOperatorObject x false = .error .inconsistentOperator ∧
      isOperatorObject x true = .ok false)) := by
  cases x with
  | vobj i fs =>
    constructor
    · constructor
      · intro h
        refine ⟨rfl, ?_, ?_⟩
        · intro hk
          have hfs : fs = [] := by
            cases fs with
            | nil => rfl
            | cons a b => simp [jsKeys] at hk
          subst hfs
          simp [isOperatorObject, isPlainObject, isOperatorObjectLoop] at h
        · have hloop : isOperatorObjectLoop inconsistentOK fs none = .ok (some true) := by
            simp only [isOperatorObject, isPlainObject, Bool.not_true,
              Bool.false_eq_true, if_false] at h
            cases hl : isOperatorObjectLoop inconsistentOK fs none with
            | error e => rw [hl] at h; simp at h
            | ok st =>
              rw [hl] at h
              simp only [Except.ok.injEq] at h
              cases st with
              | none => simp at h
              | some b =>
                cases b
                · simp at h
                · rfl
          intro k hk
          simp only [jsKeys, List.mem_map] at hk
          obtain ⟨p, hp, he⟩ := hk
          subst he
          exact loop_none_ok_someTrue_all_dollar fs inconsistentOK hloop p hp
      · rintro ⟨-, hne, hall⟩
        have hall' : ∀ p ∈ fs, firstCharDollar p.1 = true := by
          intro p hp
          exact hall p.1 (by simp only [jsKeys, List.mem_map]; exact ⟨p, hp, rfl⟩)
        have hfs : fs.isEmpty = false := by
          cases fs with
          | nil => simp [jsKeys] at hne
          | cons a b => rfl
        simp only [isOperatorObject, isPlainObject, Bool.not_true, Bool.false_eq_true,
          if_false]
        rw [loop_all_dollar_none fs inconsistentOK hall', hfs]
        rfl
    · intro _ h1 h2
      have h1' : ∃ p ∈ fs, firstCharDollar p.1 = true := by
        obtain ⟨k, hk, hs⟩ := h1
        simp only [jsKeys, List.mem_map] at hk
        obtain ⟨p, hp, he⟩ := hk
        exact ⟨p, hp, he ▸ hs⟩
      have h2' : ∃ p ∈ fs, firstCharDollar p.1 = false := by
        obtain ⟨k, hk, hs⟩ := h2
        simp only [jsKeys, List.mem_map] at hk
        obtain ⟨p, hp, he⟩ := hk
        exact ⟨p, hp, he ▸ hs⟩
      constructor
      · simp only [isOperatorObject, isPlainObject, Bool.not_true, Bool.false_eq_true,
          if_false]
        rw [loop_none_mixed_error fs h1' h2']
      · simp only [isOperatorObject, isPlainObject, Bool.not_true, Bool.false_eq_true,
          if_false]
        rw [loop_none_mixed_ok fs h1' h2']
        rfl
  | vnull => exact ⟨by simp [isOperatorObject, isPlainObject], by intro h; simp [isPlainObject] at h⟩
  | vbool b => exact ⟨by simp [isOperatorObject, isPlainObject], by intro h; simp [isPlainObject] at h⟩
  | vnum n => exact ⟨by simp [isOperatorObject, isPlainObject], by intro h; simp [isPlainObject] at h⟩
  | vstr s => exact ⟨by simp [isOperatorObject, isPlainObject], by intro h; simp [isPlainObject] at h⟩
  | vdate n => exact ⟨by simp [isOperatorObject, isPlainObject], by intro h; simp [isPlainObject] at h⟩
  | vregex s => exact ⟨by simp [isOperatorObject, isPlainObject], by intro h; simp [isPlainObject] at h⟩
  | vbin bs => exact ⟨by simp [isOperatorObject, isPlainObject], by intro h; simp [isPlainObject] at h⟩
  | varr j es => exact ⟨by simp [isOperatorObject, isPlainObject], by intro h; simp [isPlainObject] at h⟩

theorem c9_isOperatorObject_witness :
    isOperatorObject (.vobj 1 [("$gt", .vnum 1), ("b", .vnum 2)]) false =
      .error .inconsistentOperator ∧
    isOperatorObject (.vobj 1 [("$gt", .vnum 1), ("b", .vnum 2)]) true = .ok false :=
  (c9_isOperatorObject (.vobj 1 [("$gt", .vnum 1), ("b", .vnum 2)]) false).2
    (by decide) (by decide) (by decide)

theorem compile_ok_details (spec : Val) (p : Projection)
    (hc : compileProjection spec = .ok p) :
    projectionDetails spec = .ok p.details := by
  unfold compileProjection at hc
  split at hc
  · simp at hc
  · split at hc
    · split at hc
      · simp at hc
      · next dd hdd =>
        simp only [Except.ok.injEq] at hc
        rw [hdd, ← hc]
    · split at hc
      · simp at hc
      · next dd hdd =>
        simp only [Except.ok.injEq] at hc
        rw [hdd, ← hc]

theorem details_ok_parts (fields : Val) (dd : Details)
    (hd : projectionDetails fields = .ok dd) :
    resolveIncluding fields (workingKeys fields) none = .ok dd.including ∧
    pathsToTree (workingKeys fields) (fun _ => dd.including) projConflict [] =
      .ok dd.tree := by
  simp only [projectionDetails] at hd
  split at hd
  · simp at hd
  · next inc hinc =>
    split at hd
    · simp at hd
    · next tr htr =>
      simp only [Except.ok.injEq] at hd
      constructor
      · rw [← hd]
        exact hinc
      · rw [← hd]
        exact htr

theorem isObjVal_transform_obj (incl : Option Bool) (i : Nat)
    (fs : List (String × Val)) (rt : List (String × RuleTree)) :
    isObjVal (transform incl (.vobj i fs) rt) = true := by
  rw [transform_nonarr _ _ _ (by rfl), isObjVal_transformFields]
  split
  · rfl
  · rfl

/-- C5: the identifier-field rule runs after the recursive pass and
independently of the rule tree: the output's `_id` is the input's `_id`
exactly when the `_id` projection flag is on and the input has `_id`, and
absent otherwise; the spec's three concrete examples hold up to deep
equality. -/
theorem c5_id_rule :
    (∀ (spec : Val) (p : Projection) (d : Val),
      compileProjection spec = .ok p →
      getKey (applyProjection p d) "_id" =
        (if p.idProjection && hasKey d "_id" then getKey d "_id" else none)) ∧
    deq (applyProjection ⟨true, ⟨[("a", .leaf (some true))], some true⟩⟩
        (.vobj 1 [("_id", .vstr "x"), ("a", .vnum 1), ("b", .vnum 2)]))
      (.vobj 0 [("_id", .vstr "x"), ("a", .vnum 1)]) = true ∧
    compileProjection (.vobj 7 [("a", .vnum 1)]) =
      .ok ⟨true, ⟨[("a", .leaf (some true))], some true⟩⟩ ∧
    deq (applyProjection ⟨true, ⟨[("a", .leaf (some false))], some false⟩⟩
        (.vobj 1 [("_id", .vstr "x"), ("a", .vnum 1), ("b", .vnum 2)]))
      (.vobj 0 [("_id", .vstr "x"), ("b", .vnum 2)]) = true ∧
    compileProjection (.vobj 7 [("a", .vnum 0)]) =
      .ok ⟨true, ⟨[("a", .leaf (some false))], some false⟩⟩ ∧
    deq (applyProjection ⟨false, ⟨[("a", .leaf (some true))], some true⟩⟩
        (.vobj 1 [("_id", .vstr "x"), ("a", .vnum 1), ("b", .vnum 2)]))
      (.vobj 0 [("a", .vnum 1)]) = true ∧
    compileProjection (.vobj 7 [("_id", .vnum 0), ("a", .vnum 1)]) =
      .ok ⟨false, ⟨[("a", .leaf (some true))], some true⟩⟩ := by
  refine ⟨?_, ?_, rfl, ?_, rfl, ?_, rfl⟩
  · intro spec p d hc
    unfold applyProjection
    by_cases hid : p.idProjection
    · simp only [hid, Bool.not_true, Bool.false_and, Bool.false_eq_true, if_false,
        Bool.true_and, true_and]
      by_cases hhas : hasKey d "_id"
      · obtain ⟨v, hv⟩ := Option.isSome_iff_exists.mp hhas
        simp only [hhas, if_true, hv, Option.getD_some]
        have hobj : isObjVal (transform p.details.including d p.details.tree) = true := by
          cases d with
          | vobj i fs => exact isObjVal_transform_obj _ _ _ _
          | vnull => simp [hasKey, getKey] at hhas
          | vbool b => simp [hasKey, getKey] at hhas
          | vnum n => simp [hasKey, getKey] at hhas
          | vstr s => simp [hasKey, getKey] at hhas
          | vdate n => simp [hasKey, getKey] at hhas
          | vregex s => simp [hasKey, getKey] at hhas
          | vbin bs => simp [hasKey, getKey] at hhas
          | varr i es => simp [hasKey, getKey] at hhas
        rw [getKey_setKey_self _ _ _ hobj]
      · simp only [hhas, Bool.false_eq_true, if_false]
        have := hasKey_transform_false p.details.including d p.details.tree "_id"
          (by simpa using hhas)
        rw [hasKey] at this
        exact Option.not_isSome_iff_eq_none.mp (by simp [this])
    · have hid' : p.idProjection = false := by simpa using hid
      simp only [hid', Bool.false_and, Bool.false_eq_true, if_false, Bool.not_false,
        Bool.true_and]
      by_cases hhas : hasKey (transform p.details.including d p.details.tree) "_id"
      · simp only [hhas, if_true]
        exact getKey_delKey_self _ _
      · simp only [hhas, Bool.false_eq_true, if_false]
        rw [hasKey] at hhas
        exact Option.not_isSome_iff_eq_none.mp (by simpa using hhas)
  · have he : applyProjection ⟨true, ⟨[("a", .leaf (some true))], some true⟩⟩
        (.vobj 1 [("_id", .vstr "x"), ("a", .vnum 1), ("b", .vnum 2)]) =
        .vobj 0 [("a", .vnum 1), ("_id", .vstr "x")] := by
      simp [applyProjection, transform, transformFields, transformElems, fieldStep,
        hasKey, getKey, getField, setKey, setField, delKey, clone, cloneFields,
        cloneList, jsIsObject]
    rw [he]
    decide
  · have he : applyProjection ⟨true, ⟨[("a", .leaf (some false))], some false⟩⟩
        (.vobj 1 [("_id", .vstr "x"), ("a", .vnum 1), ("b", .vnum 2)]) =
        .vobj 0 [("_id", .vstr "x"), ("b", .vnum 2)] := by
      simp [applyProjection, transform, transformFields, transformElems, fieldStep,
        hasKey, getKey, getField, setKey, setField, delKey, clone, cloneFields,
        cloneList, jsIsObject]
    rw [he]
    decide
  · have he : applyProjection ⟨false, ⟨[("a", .leaf (some true))], some true⟩⟩
        (.vobj 1 [("_id", .vstr "x"), ("a", .vnum 1), ("b", .vnum 2)]) =
        .vobj 0 [("a", .vnum 1)] := by
      simp [applyProjection, transform, transformFields, transformElems, fieldStep,
        hasKey, getKey, getField, setKey, setField, delKey, clone, cloneFields,
        cloneList, jsIsObject]
    rw [he]
    decide

theorem c5_id_rule_witness :
    getKey (applyProjection ⟨true, ⟨[("a", .leaf (some true))], some true⟩⟩
      (.vobj 1 [("_id", .vstr "x"), ("a", .vnum 1), ("b", .vnum 2)])) "_id" =
      (if (⟨true, ⟨[("a", .leaf (some true))], some true⟩⟩ : Projection).idProjection &&
          hasKey (.vobj 1 [("_id", .vstr "x"), ("a", .vnum 1), ("b", .vnum 2)]) "_id" then
        getKey (.vobj 1 [("_id", .vstr "x"), ("a", .vnum 1), ("b", .vnum 2)]) "_id"
      else none) :=
  c5_id_rule.1 (.vobj 7 [("a", .vnum 1)]) ⟨true, ⟨[("a", .leaf (some true))], some true⟩⟩
    (.vobj 1 [("_id", .vstr "x"), ("a", .vnum 1), ("b", .vnum 2)]) rfl

theorem mem_insertSorted {x y : String} {l : List String} :
    x ∈ insertSorted y l ↔ x = y ∨ x ∈ l := by
  induction l with
  | nil => simp [insertSorted]
  | cons z rest ih =>
    by_cases h : strLe y z
    · simp [insertSorted, h]
    · simp only [insertSorted, h, Bool.false_eq_true, if_false, List.mem_cons, ih]
      tauto

theorem mem_sortStrings {x : String} {l : List String} :
    x ∈ sortStrings l ↔ x ∈ l := by
  induction l with
  | nil => simp [sortStrings]
  | cons y rest ih =>
    simp only [sortStrings, mem_insertSorted, List.mem_cons, ih]

theorem workingKeys_sub (fields : Val) :
    ∀ x ∈ workingKeys fields, x ∈ jsKeys fields := by
  intro x hx
  simp only [workingKeys] at hx
  split at hx
  · exact mem_sortStrings.mp (List.mem_of_mem_filter hx)
  · exact mem_sortStrings.mp hx

theorem keys_setChild (cs : List (String × RuleTree)) (k : String) (t : RuleTree) :
    ∀ x ∈ (setChild cs k t).map Prod.fst, x ∈ cs.map Prod.fst ∨ x = k := by
  induction cs with
  | nil => intro x hx; simp [setChild] at hx; exact Or.inr hx
  | cons p rest ih =>
    obtain ⟨k0, t0⟩ := p
    intro x hx
    by_cases h0 : k0 = k
    · subst h0
      simp only [setChild, beq_self_eq_true, if_true, List.map_cons, List.mem_cons] at hx
      simp only [List.map_cons, List.mem_cons]
      tauto
    · simp only [setChild, beq_iff_eq, h0, if_false, List.map_cons, List.mem_cons] at hx
      simp only [List.map_cons, List.mem_cons]
      rcases hx with rfl | hx
      · exact Or.inl (Or.inl rfl)
      · rcases ih x hx with hh | hh
        · exact Or.inl (Or.inr hh)
        · exact Or.inr hh

theorem insertPath_topKeys (newLeafFn : String → Option Bool)
    (conflictFn : RuleTree → String → String → Except MError RuleTree)
    (keyPath : String) (consumed segs : List String)
    (cs cs' : List (String × RuleTree))
    (h : insertPath newLeafFn conflictFn keyPath consumed segs cs = .ok cs') :
    ∀ x ∈ cs'.map Prod.fst, x ∈ cs.map Prod.fst ∨ segs.head? = some x := by
  intro x hx
  match segs, h with
  | [], h =>
    simp only [insertPath, Except.ok.injEq] at h
    subst h
    exact Or.inl hx
  | [lastKey], h =>
    simp only [insertPath] at h
    split at h
    · simp only [Except.ok.injEq] at h
      subst h
      rcases keys_setChild cs lastKey _ x hx with hh | rfl
      · exact Or.inl hh
      · exact Or.inr rfl
    · split at h
      · simp only [Except.ok.injEq] at h
        subst h
        rcases keys_setChild cs lastKey _ x hx with hh | rfl
        · exact Or.inl hh
        · exact Or.inr rfl
      · simp at h
  | key :: seg2 :: more, h =>
    simp only [insertPath] at h
    split at h
    · split at h
      · simp only [Except.ok.injEq] at h
        subst h
        rcases keys_setChild cs key _ x hx with hh | rfl
        · exact Or.inl hh
        · exact Or.inr rfl
      · simp at h
    · split at h
      · simp only [Except.ok.injEq] at h
        subst h
        rcases keys_setChild cs key _ x hx with hh | rfl
        · exact Or.inl hh
        · exact Or.inr rfl
      · simp at h
    · split at h
      · split at h
        · simp only [Except.ok.injEq] at h
          subst h
          rcases keys_setChild cs key _ x hx with hh | rfl
          · exact Or.inl hh
          · exact Or.inr rfl
        · simp at h
      · simp only [Except.ok.injEq] at h
        subst h
        rcases keys_setChild cs key _ x hx with hh | rfl
        · exact Or.inl hh
        · exact Or.inr rfl
      · simp at h

theorem pathsToTree_topKeys (paths : List String) (newLeafFn : String → Option Bool)
    (conflictFn : RuleTree → String → String → Except MError RuleTree)
    (init tree : List (String × RuleTree))
    (h : pathsToTree paths newLeafFn conflictFn init = .ok tree) :
    ∀ x ∈ tree.map Prod.fst,
      x ∈ init.map Prod.fst ∨ ∃ p ∈ paths, (splitPath p).head? = some x := by
  induction paths generalizing init with
  | nil =>
    intro x hx
    simp only [pathsToTree, Except.ok.injEq] at h
    subst h
    exact Or.inl hx
  | cons p rest ih =>
    intro x hx
    simp only [pathsToTree] at h
    split at h
    · next t1 hins =>
      rcases ih t1 h x hx with hh | ⟨q, hq, hqh⟩
      · rcases insertPath_topKeys _ _ _ _ _ _ _ hins x hh with h2 | h2
        · exact Or.inl h2
        · exact Or.inr ⟨p, List.mem_cons_self _ _, h2⟩
      · exact Or.inr ⟨q, List.mem_cons_of_mem _ hq, hqh⟩
    · simp at h

/-- C10: on a top-level array input only the rule-tree pass is mapped over
the elements — the returned array has no `_id` own property, so both `_id`
branches of the closure are skipped and the identifier rule is never
applied to any element.  Consequently, for an inclusive spec naming no
path that starts at `_id`, every element's `_id` is dropped; e.g. the
transform of `[{_id:"x", a:1}]` under `{a:1}` is `[{a:1}]`. -/
theorem c10_array_input :
    (∀ (spec : Val) (p : Projection) (i : Nat) (l : List Val),
      compileProjection spec = .ok p →
      applyProjection p (.varr i l) =
        .varr 0 (l.map (fun d => transform p.details.including d p.details.tree))) ∧
    (∀ (spec : Val) (p : Projection) (d : Val),
      compileProjection spec = .ok p →
      p.details.including = some true →
      (∀ k ∈ jsKeys spec, (splitPath k).head? ≠ some "_id") →
      getKey (transform p.details.including d p.details.tree) "_id" = none) ∧
    applyProjection ⟨true, ⟨[("a", .leaf (some true))], some true⟩⟩
        (.varr 5 [.vobj 1 [("_id", .vstr "x"), ("a", .vnum 1)]]) =
      .varr 0 [.vobj 0 [("a", .vnum 1)]] ∧
    compileProjection (.vobj 7 [("a", .vnum 1)]) =
      .ok ⟨true, ⟨[("a", .leaf (some true))], some true⟩⟩ := by
  refine ⟨?_, ?_, ?_, rfl⟩
  · intro spec p i l hc
    unfold applyProjection
    rw [transform_varr, transformElems_map]
    simp [hasKey, getKey]
  · intro spec p d hc hincl hnoid
    have hnotin : ¬ "_id" ∈ p.details.tree.map Prod.fst := by
      intro hmem
      have hd := compile_ok_details spec p hc
      have htree := (details_ok_parts spec p.details hd).2
      rcases pathsToTree_topKeys _ _ _ _ _ htree "_id" hmem with hh | ⟨q, hq, hqh⟩
      · simp at hh
      · exact hnoid q (workingKeys_sub spec q hq) hqh
    rw [hincl]
    cases ha : jsIsArray d with
    | true =>
      cases d <;> simp [jsIsArray] at ha
      rw [transform_varr]
      rfl
    | false =>
      rw [transform_nonarr _ _ _ ha, getKey_transformFields_notMem _ _ _ _ _ hnotin]
      rfl
  · have he : applyProjection ⟨true, ⟨[("a", .leaf (some true))], some true⟩⟩
        (.varr 5 [.vobj 1 [("_id", .vstr "x"), ("a", .vnum 1)]]) =
        .varr 0 [.vobj 0 [("a", .vnum 1)]] := by
      simp [applyProjection, transform, transformFields, transformElems, fieldStep,
        hasKey, getKey, getField, setKey, setField, delKey, clone, cloneFields,
        cloneList, jsIsObject]
    exact he

theorem c10_array_input_witness :
    applyProjection ⟨true, ⟨[("a", .leaf (some true))], some true⟩⟩
        (.varr 5 [.vobj 1 [("_id", .vstr "x"), ("a", .vnum 1)]]) =
      .varr 0 ([Val.vobj 1 [("_id", .vstr "x"), ("a", .vnum 1)]].map
        (fun d => transform (some true) d [("a", .leaf (some true))])) ∧
    getKey (transform (some true) (.vobj 1 [("_id", .vstr "x"), ("a", .vnum 1)])
      [("a", .leaf (some true))]) "_id" = none :=
  ⟨c10_array_input.1 (.vobj 7 [("a", .vnum 1)])
      ⟨true, ⟨[("a", .leaf (some true))], some true⟩⟩ 5
      [.vobj 1 [("_id", .vstr "x"), ("a", .vnum 1)]] rfl,
   c10_array_input.2.1 (.vobj 7 [("a", .vnum 1)])
      ⟨true, ⟨[("a", .leaf (some true))], some true⟩⟩
      (.vobj 1 [("_id", .vstr "x"), ("a", .vnum 1)]) rfl rfl (by decide)⟩

/-- Top-level key distinctness of a tree node's children (trees built by
`pathsToTree` have it at every level; the top level is what the
field loop consults). -/
def treeKeysNodup : List (String × RuleTree) → Bool
  | [] => true
  | (k, _) :: rest => rest.all (fun p => p.1 != k) && treeKeysNodup rest

theorem mem_setChild {cs : List (String × RuleTree)} {k : String} {t : RuleTree}
    {p : String × RuleTree} (h : p ∈ setChild cs k t) : p ∈ cs ∨ p = (k, t) := by
  induction cs with
  | nil =>
    simp only [setChild, List.mem_singleton] at h
    exact Or.inr h
  | cons q rest ih =>
    obtain ⟨k0, t0⟩ := q
    by_cases h0 : k0 = k
    · subst h0
      simp only [setChild, beq_self_eq_true, if_true, List.mem_cons] at h
      rcases h with rfl | h
      · exact Or.inr rfl
      · exact Or.inl (List.mem_cons_of_mem _ h)
    · simp only [setChild, beq_iff_eq, h0, if_false, List.mem_cons] at h
      rcases h with rfl | h
      · exact Or.inl (List.mem_cons_self _ _)
      · rcases ih h with hh | hh
        · exact Or.inl (List.mem_cons_of_mem _ hh)
        · exact Or.inr hh

theorem treeKeysNodup_setChild {cs : List (String × RuleTree)} (k : String)
    (t : RuleTree) (h : treeKeysNodup cs = true) :
    treeKeysNodup (setChild cs k t) = true := by
  induction cs with
  | nil => rfl
  | cons q rest ih =>
    obtain ⟨k0, t0⟩ := q
    simp only [treeKeysNodup, Bool.and_eq_true, List.all_eq_true] at h
    by_cases h0 : k0 = k
    · subst h0
      simp only [setChild, beq_self_eq_true, if_true, treeKeysNodup,
        Bool.and_eq_true, List.all_eq_true]
      exact ⟨h.1, h.2⟩
    · simp only [setChild, beq_iff_eq, h0, if_false, treeKeysNodup,
        Bool.and_eq_true, List.all_eq_true]
      refine ⟨?_, ih h.2⟩
      intro p hp
      rcases mem_setChild hp with hh | rfl
      · exact h.1 p hh
      · simpa using fun e => h0 e.symm

theorem treeKeysNodup_insertPath (newLeafFn : String → Option Bool)
    (conflictFn : RuleTree → String → String → Except MError RuleTree)
    (keyPath : String) (consumed segs : List String)
    (cs cs' : List (String × RuleTree))
    (h : insertPath newLeafFn conflictFn keyPath consumed segs cs = .ok cs')
    (hn : treeKeysNodup cs = true) : treeKeysNodup cs' = true := by
  match segs, h with
  | [], h =>
    simp only [insertPath, Except.ok.injEq] at h
    subst h
    exact hn
  | [lastKey], h =>
    simp only [insertPath] at h
    split at h
    · simp only [Except.ok.injEq] at h
      subst h
      exact treeKeysNodup_setChild _ _ hn
    · split at h
      · simp only [Except.ok.injEq] at h
        subst h
        exact treeKeysNodup_setChild _ _ hn
      · simp at h
  | key :: seg2 :: more, h =>
    simp only [insertPath] at h
    split at h
    · split at h
      · simp only [Except.ok.injEq] at h
        subst h
        exact treeKeysNodup_setChild _ _ hn
      · simp at h
    · split at h
      · simp only [Except.ok.injEq] at h
        subst h
        exact treeKeysNodup_setChild _ _ hn
      · simp at h
    · split at h
      · split at h
        · simp only [Except.ok.injEq] at h
          subst h
          exact treeKeysNodup_setChild _ _ hn
        · simp at h
      · simp only [Except.ok.injEq] at h
        subst h
        exact treeKeysNodup_setChild _ _ hn
      · simp at h

theorem treeKeysNodup_pathsToTree (paths : List String)
    (newLeafFn : String → Option Bool)
    (conflictFn : RuleTree → String → String → Except MError RuleTree)
    (init tree : List (String × RuleTree))
    (h : pathsToTree paths newLeafFn conflictFn init = .ok tree)
    (hn : treeKeysNodup init = true) : treeKeysNodup tree = true := by
  induction paths generalizing init with
  | nil =>
    simp only [pathsToTree, Except.ok.injEq] at h
    subst h
    exact hn
  | cons p rest ih =>
    simp only [pathsToTree] at h
    split at h
    · next t1 hins =>
      exact ih t1 h (treeKeysNodup_insertPath _ _ _ _ _ _ _ hins hn)
    · simp at h

theorem compile_tree_nodup (spec : Val) (p : Projection)
    (hc : compileProjection spec = .ok p) :
    treeKeysNodup p.details.tree = true := by
  have hd := compile_ok_details spec p hc
  have htree := (details_ok_parts spec p.details hd).2
  exact treeKeysNodup_pathsToTree _ _ _ _ _ htree rfl

theorem clone_of_not_jsIsObject (v : Val) (h : jsIsObject v = false) :
    clone v = v := by
  cases v <;> first
    | rfl
    | simp [jsIsObject] at h

theorem getKey_transformFields_node (incl : Option Bool) (d : Val)
    (rt : List (String × RuleTree)) (res : Val) (k : String) (sub : List (String × RuleTree))
    (v : Val)
    (hnd : treeKeysNodup rt = true) (hmem : (k, RuleTree.node sub) ∈ rt)
    (hv : getKey d k = some v) (hobj : isObjVal res = true) :
    getKey (transformFields incl d rt res) k =
      (if jsIsObject v then some (transform incl v sub) else getKey res k) := by
  induction rt generalizing res with
  | nil => simp at hmem
  | cons q rest ih =>
    obtain ⟨k0, rule0⟩ := q
    simp only [treeKeysNodup, Bool.and_eq_true, List.all_eq_true] at hnd
    rw [transformFields_cons]
    by_cases h0 : k0 = k
    · subst h0
      have hrule : rule0 = .node sub := by
        rcases List.mem_cons.mp hmem with he | he
        · exact ((Prod.mk.injEq .. ▸ he).2).symm
        · have := hnd.1 _ he
          simp at this
      subst hrule
      have hnotin : ¬ k0 ∈ rest.map Prod.fst := by
        intro hin
        simp only [List.mem_map] at hin
        obtain ⟨q, hq, he⟩ := hin
        have := hnd.1 q hq
        rw [he] at this
        simp at this
      rw [getKey_transformFields_notMem _ _ _ _ _ hnotin]
      unfold fieldStep
      rw [hasKey, hv]
      simp only [Option.isSome_some, if_true]
      split
      · rw [getKey_setKey_self _ _ _ hobj]
      · rfl
    · have hmem' : (k, RuleTree.node sub) ∈ rest := by
        rcases List.mem_cons.mp hmem with he | he
        · exact absurd ((Prod.mk.injEq .. ▸ he).1) (fun e => h0 e.symm)
        · exact he
      rw [ih _ hnd.2 hmem' (by rw [isObjVal_fieldStep]; exact hobj)]
      split
      · rfl
      · rw [getKey_fieldStep_ne _ _ _ _ _ _ (fun e => h0 e.symm)]

/-- C2 (counterexample): the claim that the transform descends exactly on
`isIndexable` values and leaves dates (and other non-document objects)
untouched is false: the code tests `_.isObject`, which is also true of a
date, so under spec `{"a.b":1}` and document `{a: <date>}` the transform
descends into the date and replaces it by `{}` instead of leaving the
subfield untouched. -/
theorem c2_counterexample :
    compileProjection (.vobj 7 [("a.b", .vnum 1)]) =
      .ok ⟨true, ⟨[("a", .node [("b", .leaf (some true))])], some true⟩⟩ ∧
    isIndexable (.vdate 0) = false ∧
    applyProjection ⟨true, ⟨[("a", .node [("b", .leaf (some true))])], some true⟩⟩
        (.vobj 1 [("a", .vdate 0)]) = .vobj 0 [("a", .vobj 0 [])] ∧
    getKey (.vobj 0 [("a", .vobj 0 [])]) "a" = some (.vobj 0 []) ∧
    (Val.vobj 0 [] = Val.vdate 0 → False) := by
  refine ⟨rfl, rfl, ?_, rfl, fun h => Val.noConfusion h⟩
  simp [applyProjection, transform, transformFields, transformElems, fieldStep,
    hasKey, getKey, getField, setKey, setField, delKey, clone, cloneFields,
    cloneList, jsIsObject]

/-- C2 (amended): for a compiled projection whose rule tree holds a
subtree at `key`, the transform descends into `d[key]` exactly when
`d[key]` is an object in the JavaScript `typeof`/`_.isObject` sense —
plain object, array, date, regexp or binary — not the narrower
`isIndexable` classification; for primitive scalar values the subfield is
left untouched (absent in inclusive mode, the cloned original in exclusive
mode). -/
theorem c2_descend_on_isObject (spec : Val) (p : Projection) (d : Val)
    (k : String) (sub : List (String × RuleTree)) (v : Val)
    (hc : compileProjection spec = .ok p)
    (hmem : (k, RuleTree.node sub) ∈ p.details.tree)
    (hv : getKey d k = some v) :
    getKey (transform p.details.including d p.details.tree) k =
      (if jsIsObject v then some (transform p.details.including v sub)
       else if p.details.including == some true then none else some v) := by
  have hnd := compile_tree_nodup spec p hc
  have hdobj : jsIsArray d = false := by
    cases d <;> first
      | rfl
      | simp [getKey] at hv
  rw [transform_nonarr _ _ _ hdobj]
  rw [getKey_transformFields_node _ _ _ _ _ _ _ hnd hmem hv]
  · split
    · rfl
    · next hno =>
      have hno' : jsIsObject v = false := by simpa using hno
      split
      · rfl
      · rw [getKey_clone, hv]
        simp [clone_of_not_jsIsObject v hno']
  · split
    · rfl
    · cases d <;> first
      | rfl
      | simp [getKey] at hv

theorem c2_descend_on_isObject_witness :
    getKey (transform (some true) (.vobj 1 [("a", .vdate 0)])
      [("a", .node [("b", .leaf (some true))])]) "a" =
      some (transform (some true) (.vdate 0) [("b", .leaf (some true))]) := by
  have h := c2_descend_on_isObject (.vobj 7 [("a.b", .vnum 1)])
    ⟨true, ⟨[("a", .node [("b", .leaf (some true))])], some true⟩⟩
    (.vobj 1 [("a", .vdate 0)]) "a" [("b", .leaf (some true))] (.vdate 0)
    rfl (List.mem_singleton.mpr rfl) rfl
  simpa using h

/-- Truthiness of the spec's value at a key, as the including walk reads it. -/
def ruleAt (fields : Val) (k : String) : Bool :=
  jsTruthy ((getKey fields k).getD .vnull)

theorem resolveIncluding_some_preserved (fields : Val) :
    ∀ (ks : List String) (b : Bool) (inc : Option Bool),
    resolveIncluding fields ks (some b) = .ok inc → inc = some b := by
  intro ks
  induction ks with
  | nil =>
    intro b inc h
    simp only [resolveIncluding, Except.ok.injEq] at h
    exact h.symm
  | cons k rest ih =>
    intro b inc h
    simp only [resolveIncluding] at h
    split at h
    · simp at h
    · exact ih b inc h

theorem resolveIncluding_mixed_some (fields : Val) :
    ∀ (ks : List String) (b : Bool),
    (∃ k ∈ ks, ruleAt fields k = !b) →
    resolveIncluding fields ks (some b) = .error .mixedIncludingExcluding := by
  intro ks
  induction ks with
  | nil =>
    intro b ⟨k, hk, _⟩
    simp at hk
  | cons k0 rest ih =>
    intro b ⟨k, hk, hkr⟩
    by_cases h0 : ruleAt fields k0 = b
    · have hne : ((some b != some (jsTruthy ((getKey fields k0).getD .vnull))) = false) := by
        simp [ruleAt] at h0
        simp [h0]
      simp only [resolveIncluding, hne, Bool.false_eq_true, if_false]
      apply ih b
      rcases List.mem_cons.mp hk with rfl | hk'
      · rw [h0] at hkr
        cases b <;> simp at hkr
      · exact ⟨k, hk', hkr⟩
    · have h0' : ruleAt fields k0 = !b := by
        cases hb : ruleAt fields k0 <;> cases b <;> simp_all
      have hne : ((some b != some (jsTruthy ((getKey fields k0).getD .vnull))) = true) := by
        simp only [ruleAt] at h0'
        rw [h0']
        cases b <;> rfl
      simp only [resolveIncluding, hne, if_true]


theorem resolveIncluding_mixed_none (fields : Val) (ks : List String)
    (h1 : ∃ k ∈ ks, ruleAt fields k = true)
    (h2 : ∃ k ∈ ks, ruleAt fields k = false) :
    resolveIncluding fields ks none = .error .mixedIncludingExcluding := by
  cases ks with
  | nil => obtain ⟨k, hk, _⟩ := h1; simp at hk
  | cons k0 rest =>
    have hstep : resolveIncluding fields (k0 :: rest) none =
        resolveIncluding fields rest (some (ruleAt fields k0)) := by
      simp [resolveIncluding, ruleAt]
    rw [hstep]
    apply resolveIncluding_mixed_some fields rest (ruleAt fields k0)
    cases hb : ruleAt fields k0 with
    | true =>
      obtain ⟨k, hk, hkr⟩ := h2
      rcases List.mem_cons.mp hk with rfl | hk'
      · rw [hb] at hkr; simp at hkr
      · exact ⟨k, hk', by simp [hkr]⟩
    | false =>
      obtain ⟨k, hk, hkr⟩ := h1
      rcases List.mem_cons.mp hk with rfl | hk'
      · rw [hb] at hkr; simp at hkr
      · exact ⟨k, hk', by simp [hkr]⟩

theorem mem_workingKeys (fields : Val) (k : String)
    (hk : k ∈ jsKeys fields) (hne : k ≠ "_id") : k ∈ workingKeys fields := by
  simp only [workingKeys]
  split
  · refine List.mem_filter.mpr ⟨mem_sortStrings.mpr hk, ?_⟩
    simp [hne]
  · exact mem_sortStrings.mpr hk

theorem getKey_mem_keys {fields : Val} {k : String} {v : Val}
    (h : getKey fields k = some v) : k ∈ jsKeys fields := by
  cases fields with
  | vobj i fs =>
    simp only [getKey] at h
    simp only [jsKeys, List.mem_map]
    exact ⟨(k, v), mem_of_getField h, rfl⟩
  | vnull => simp [getKey] at h
  | vbool b => simp [getKey] at h
  | vnum n => simp [getKey] at h
  | vstr s => simp [getKey] at h
  | vdate n => simp [getKey] at h
  | vregex s => simp [getKey] at h
  | vbin bs => simp [getKey] at h
  | varr i es => simp [getKey] at h

/-- C4: a specification that passes validation and whose non-identifier
keys mix truthy and falsy values fails with `MixedProjectionModeError`;
and when the walk succeeds, the mode is the truthiness of the
lexicographically first working key. -/
theorem c4_mixed_modes :
    (∀ (spec : Val) (k1 k2 : String) (v1 v2 : Val),
      checkSupportedProjection spec = .ok () →
      getKey spec k1 = some v1 → getKey spec k2 = some v2 →
      k1 ≠ "_id" → k2 ≠ "_id" →
      jsTruthy v1 = true → jsTruthy v2 = false →
      compileProjection spec = .error .mixedIncludingExcluding) ∧
    (∀ (spec : Val) (k : String) (rest : List String) (inc : Option Bool),
      workingKeys spec = k :: rest →
      resolveIncluding spec (workingKeys spec) none = .ok inc →
      inc = some (ruleAt spec k)) := by
  constructor
  · intro spec k1 k2 v1 v2 hck hg1 hg2 hne1 hne2 ht1 ht2
    have hm1 : k1 ∈ workingKeys spec :=
      mem_workingKeys spec k1 (getKey_mem_keys hg1) hne1
    have hm2 : k2 ∈ workingKeys spec :=
      mem_workingKeys spec k2 (getKey_mem_keys hg2) hne2
    have hr : resolveIncluding spec (workingKeys spec) none =
        .error .mixedIncludingExcluding := by
      apply resolveIncluding_mixed_none
      · exact ⟨k1, hm1, by simp [ruleAt, hg1, ht1]⟩
      · exact ⟨k2, hm2, by simp [ruleAt, hg2, ht2]⟩
    unfold compileProjection
    rw [hck]
    simp only [projectionDetails, hr]
  · intro spec k rest inc hwk hr
    rw [hwk] at hr
    simp only [resolveIncluding] at hr
    split at hr
    · simp at hr
    · exact resolveIncluding_some_preserved spec rest _ inc hr

theorem c4_mixed_modes_witness :
    compileProjection (.vobj 0 [("a", .vnum 1), ("b", .vnum 0)]) =
      .error .mixedIncludingExcluding ∧
    (some true : Option Bool) =
      some (ruleAt (.vobj 0 [("a", .vnum 1), ("b", .vnum 1)]) "a") :=
  ⟨c4_mixed_modes.1 (.vobj 0 [("a", .vnum 1), ("b", .vnum 0)]) "a" "b"
      (.vnum 1) (.vnum 0) rfl rfl rfl (by decide) (by decide) rfl rfl,
   c4_mixed_modes.2 (.vobj 0 [("a", .vnum 1), ("b", .vnum 1)]) "a" ["b"]
      (some true) rfl rfl⟩

/-! ## Deep key distinctness of built trees -/

mutual
/-- Whether a child subtree has distinct keys at every level. -/
def childNodup : RuleTree → Bool
  | .leaf _ => true
  | .node sub => treeNodupDeep sub

/-- Key distinctness at every level of a tree (true of every tree built by
`pathsToTree`). -/
def treeNodupDeep : List (String × RuleTree) → Bool
  | [] => true
  | (k, t) :: rest =>
    rest.all (fun p => p.1 != k) && childNodup t && treeNodupDeep rest
end

theorem treeKeysNodup_of_deep : ∀ (cs : List (String × RuleTree)),
    treeNodupDeep cs = true → treeKeysNodup cs = true
  | [], _ => rfl
  | (k, t) :: rest, h => by
    simp only [treeNodupDeep, Bool.and_eq_true] at h
    simp only [treeKeysNodup, Bool.and_eq_true]
    exact ⟨h.1.1, treeKeysNodup_of_deep rest h.2⟩

theorem childNodup_of_mem : ∀ (cs : List (String × RuleTree))
    (p : String × RuleTree), treeNodupDeep cs = true → p ∈ cs →
    childNodup p.2 = true
  | [], _, _, hp => by simp at hp
  | (k, t) :: rest, p, h, hp => by
    simp only [treeNodupDeep, Bool.and_eq_true] at h
    rcases List.mem_cons.mp hp with rfl | hp'
    · exact h.1.2
    · exact childNodup_of_mem rest p h.2 hp'

theorem treeNodupDeep_setChild : ∀ (cs : List (String × RuleTree)) (k : String)
    (t : RuleTree), treeNodupDeep cs = true → childNodup t = true →
    treeNodupDeep (setChild cs k t) = true
  | [], k, t, _, ht => by
    simp [setChild, treeNodupDeep, ht]
  | (k0, t0) :: rest, k, t, h, ht => by
    simp only [treeNodupDeep, Bool.and_eq_true] at h
    by_cases h0 : k0 = k
    · subst h0
      simp only [setChild, beq_self_eq_true, if_true, treeNodupDeep,
        Bool.and_eq_true]
      exact ⟨⟨h.1.1, ht⟩, h.2⟩
    · simp only [setChild, beq_iff_eq, h0, if_false, treeNodupDeep,
        Bool.and_eq_true]
      refine ⟨⟨?_, h.1.2⟩, treeNodupDeep_setChild rest k t h.2 ht⟩
      simp only [List.all_eq_true]
      intro p hp
      rcases mem_setChild hp with hh | rfl
      · exact (List.all_eq_true.mp h.1.1) p hh
      · simpa using fun e => h0 e.symm

theorem getChild_node_deep {cs : List (String × RuleTree)} {k : String}
    {sub : List (String × RuleTree)} (h : treeNodupDeep cs = true)
    (hg : getChild cs k = some (.node sub)) : treeNodupDeep sub = true := by
  induction cs with
  | nil => simp [getChild] at hg
  | cons p rest ih =>
    obtain ⟨k0, t0⟩ := p
    simp only [treeNodupDeep, Bool.and_eq_true] at h
    by_cases h0 : k0 = k
    · subst h0
      simp only [getChild, beq_self_eq_true, if_true, Option.some.injEq] at hg
      subst hg
      exact h.1.2
    · simp only [getChild, beq_iff_eq, h0, if_false] at hg
      exact ih h.2 hg

theorem treeNodupDeep_insertPath (newLeafFn : String → Option Bool)
    (keyPath : String) :
    ∀ (segs consumed : List String) (cs cs' : List (String × RuleTree)),
    insertPath newLeafFn projConflict keyPath consumed segs cs = .ok cs' →
    treeNodupDeep cs = true → treeNodupDeep cs' = true
  | [], _, cs, cs', h, hn => by
    simp only [insertPath, Except.ok.injEq] at h
    subst h
    exact hn
  | [lastKey], _, cs, cs', h, hn => by
    simp only [insertPath] at h
    split at h
    · simp only [Except.ok.injEq] at h
      subst h
      exact treeNodupDeep_setChild _ _ _ hn rfl
    · split at h
      · next r hr => simp [projConflict] at hr
      · simp at h
  | key :: seg2 :: more, consumed, cs, cs', h, hn => by
    simp only [insertPath] at h
    split at h
    · split at h
      · next sub hins =>
        simp only [Except.ok.injEq] at h
        subst h
        refine treeNodupDeep_setChild _ _ _ hn ?_
        exact treeNodupDeep_insertPath newLeafFn keyPath (seg2 :: more) _ _ _ hins rfl
      · simp at h
    · next sub hg =>
      split at h
      · next sub' hins =>
        simp only [Except.ok.injEq] at h
        subst h
        refine treeNodupDeep_setChild _ _ _ hn ?_
        exact treeNodupDeep_insertPath newLeafFn keyPath (seg2 :: more) _ _ _ hins
          (getChild_node_deep hn hg)
      · simp at h
    · split at h
      · next r hr => simp [projConflict] at hr
      · next r hr => simp [projConflict] at hr
      · simp at h

theorem treeNodupDeep_pathsToTree (newLeafFn : String → Option Bool) :
    ∀ (paths : List String) (init tree : List (String × RuleTree)),
    pathsToTree paths newLeafFn projConflict init = .ok tree →
    treeNodupDeep init = true → treeNodupDeep tree = true
  | [], init, tree, h, hn => by
    simp only [pathsToTree, Except.ok.injEq] at h
    subst h
    exact hn
  | p :: rest, init, tree, h, hn => by
    simp only [pathsToTree] at h
    split at h
    · next t1 hins =>
      exact treeNodupDeep_pathsToTree newLeafFn rest t1 tree h
        (treeNodupDeep_insertPath newLeafFn p (splitPath p) [] init t1 hins hn)
    · simp at h

theorem compile_tree_nodup_deep (spec : Val) (p : Projection)
    (hc : compileProjection spec = .ok p) :
    treeNodupDeep p.details.tree = true := by
  have hd := compile_ok_details spec p hc
  have htree := (details_ok_parts spec p.details hd).2
  exact treeNodupDeep_pathsToTree _ _ _ _ htree rfl

/-! ## Explicit product form of the inclusive field loop -/

theorem getField_append (l1 l2 : List (String × Val)) (k : String) :
    getField (l1 ++ l2) k =
      (match getField l1 k with
       | some v => some v
       | none => getField l2 k) := by
  induction l1 with
  | nil => simp [getField]
  | cons p rest ih =>
    obtain ⟨k0, v0⟩ := p
    by_cases h0 : k0 = k
    · subst h0; simp [getField]
    · simp [getField, h0, ih]

theorem setField_append_of_absent (acc : List (String × Val)) (k : String) (v : Val)
    (h : getField acc k = none) : setField acc k v = acc ++ [(k, v)] := by
  induction acc with
  | nil => rfl
  | cons p rest ih =>
    obtain ⟨k0, v0⟩ := p
    by_cases h0 : k0 = k
    · subst h0; simp [getField] at h
    · simp only [getField, beq_iff_eq, h0, if_false] at h
      simp [setField, h0, ih h]

/-- Contribution of one tree child to the inclusive result. -/
def contrib (incl : Option Bool) (d : Val) (k : String) (rule : RuleTree) :
    List (String × Val) :=
  match rule, getKey d k with
  | .node sub, some v =>
    if jsIsObject v then [(k, transform incl v sub)] else []
  | .leaf _, some v => [(k, clone v)]
  | _, none => []

/-- The inclusive field loop produces exactly the concatenation of the
children's contributions. -/
def prodT (incl : Option Bool) (d : Val) : List (String × RuleTree) → List (String × Val)
  | [] => []
  | (k, rule) :: rest => contrib incl d k rule ++ prodT incl d rest

theorem contrib_keys (incl : Option Bool) (d : Val) (k : String) (rule : RuleTree) :
    ∀ p ∈ contrib incl d k rule, p.1 = k := by
  intro p hp
  unfold contrib at hp
  split at hp
  · split at hp
    · simp only [List.mem_singleton] at hp
      rw [hp]
    · simp at hp
  · simp only [List.mem_singleton] at hp
    rw [hp]
  · simp at hp

theorem contrib_of_none (incl : Option Bool) (d : Val) (k : String) (rule : RuleTree)
    (h : getKey d k = none) : contrib incl d k rule = [] := by
  unfold contrib
  cases rule <;> rw [h]

theorem contrib_congr (incl : Option Bool) (d1 d2 : Val) (k : String) (rule : RuleTree)
    (h : getKey d1 k = getKey d2 k) : contrib incl d1 k rule = contrib incl d2 k rule := by
  unfold contrib
  rw [h]

theorem prodT_congr (incl : Option Bool) (d1 d2 : Val) :
    ∀ (rt : List (String × RuleTree)),
    (∀ p ∈ rt, contrib incl d1 p.1 p.2 = contrib incl d2 p.1 p.2) →
    prodT incl d1 rt = prodT incl d2 rt
  | [], _ => rfl
  | (k, rule) :: rest, h => by
    simp only [prodT]
    rw [h (k, rule) (List.mem_cons_self _ _),
      prodT_congr incl d1 d2 rest (fun p hp => h p (List.mem_cons_of_mem _ hp))]

theorem contrib_shape (incl : Option Bool) (d : Val) (k : String) (rule : RuleTree) :
    contrib incl d k rule = [] ∨ ∃ x, contrib incl d k rule = [(k, x)] := by
  cases rule with
  | node sub =>
    cases hg : getKey d k with
    | none => exact Or.inl (contrib_of_none _ _ _ _ hg)
    | some v =>
      by_cases ho : jsIsObject v = true
      · exact Or.inr ⟨transform incl v sub, by simp [contrib, hg, ho]⟩
      · exact Or.inl (by simp [contrib, hg, ho])
  | leaf lv =>
    cases hg : getKey d k with
    | none => exact Or.inl (contrib_of_none _ _ _ _ hg)
    | some v => exact Or.inr ⟨clone v, by simp [contrib, hg]⟩

theorem prodT_keys (incl : Option Bool) (d : Val) :
    ∀ (rt : List (String × RuleTree)), ∀ p ∈ prodT incl d rt, ∃ q ∈ rt, p.1 = q.1
  | [], p, hp => by simp [prodT] at hp
  | (k, rule) :: rest, p, hp => by
    simp only [prodT, List.mem_append] at hp
    rcases hp with hp | hp
    · exact ⟨(k, rule), List.mem_cons_self _ _, contrib_keys _ _ _ _ p hp⟩
    · obtain ⟨q, hq, he⟩ := prodT_keys incl d rest p hp
      exact ⟨q, List.mem_cons_of_mem _ hq, he⟩

theorem fieldStep_contrib (d : Val) (k : String) (rule : RuleTree) (i : Nat)
    (acc : List (String × Val)) (hacc : getField acc k = none) :
    fieldStep (some true) d k rule (.vobj i acc) =
      .vobj i (acc ++ contrib (some true) d k rule) := by
  cases rule with
  | node sub =>
    cases hg : getKey d k with
    | none =>
      simp only [fieldStep, hasKey, hg, Option.isSome_none, Bool.false_eq_true,
        if_false, contrib]
      simp
    | some v =>
      simp only [fieldStep, hasKey, hg, Option.isSome_some, if_true, contrib]
      split
      · simp [setKey, setField_append_of_absent acc k _ hacc]
      · simp
  | leaf lv =>
    cases hg : getKey d k with
    | none =>
      simp only [fieldStep, hasKey, hg, Option.isSome_none, Bool.false_eq_true,
        if_false, contrib]
      simp
    | some v =>
      simp only [fieldStep, hasKey, hg, Option.isSome_some, if_true, contrib]
      simp [setKey, setField_append_of_absent acc k _ hacc]

theorem transformFields_prodT (d : Val) :
    ∀ (rt : List (String × RuleTree)) (i : Nat) (acc : List (String × Val)),
    treeKeysNodup rt = true →
    (∀ p ∈ rt, getField acc p.1 = none) →
    transformFields (some true) d rt (.vobj i acc) =
      .vobj i (acc ++ prodT (some true) d rt)
  | [], i, acc, _, _ => by
    rw [transformFields_nil]
    simp [prodT]
  | (k, rule) :: rest, i, acc, hnd, hdis => by
    simp only [treeKeysNodup, Bool.and_eq_true, List.all_eq_true] at hnd
    rw [transformFields_cons,
      fieldStep_contrib d k rule i acc (hdis (k, rule) (List.mem_cons_self _ _))]
    rw [transformFields_prodT d rest i _ hnd.2 ?_]
    · simp only [prodT, List.append_assoc]
    · intro p hp
      rw [getField_append]
      rw [hdis p (List.mem_cons_of_mem _ hp)]
      have hpk : p.1 ≠ k := by
        have := hnd.1 p hp
        simpa using this
      rcases contrib_shape (some true) d k rule with he | ⟨x, he⟩
      · rw [he]
        rfl
      · rw [he]
        simp only [getField]
        rw [if_neg (by simp; exact fun e => hpk e.symm)]

theorem transform_incl_eq_prodT (d : Val) (rt : List (String × RuleTree))
    (hnd : treeKeysNodup rt = true) (hna : jsIsArray d = false) :
    transform (some true) d rt = .vobj 0 (prodT (some true) d rt) := by
  rw [transform_nonarr _ _ _ hna]
  have hb : (if ((some true : Option Bool) == some true) = true then Val.vobj 0 []
      else clone d) = .vobj 0 [] := by rfl
  rw [hb]
  rw [transformFields_prodT d rt 0 [] hnd (fun p _ => rfl)]
  rfl

theorem getField_prodT (incl : Option Bool) (d : Val) :
    ∀ (rt : List (String × RuleTree)) (k : String) (rule : RuleTree),
    treeKeysNodup rt = true → (k, rule) ∈ rt →
    getField (prodT incl d rt) k = getField (contrib incl d k rule) k
  | [], k, rule, _, hmem => by simp at hmem
  | (k0, rule0) :: rest, k, rule, hnd, hmem => by
    simp only [treeKeysNodup, Bool.and_eq_true, List.all_eq_true] at hnd
    simp only [prodT]
    rw [getField_append]
    by_cases h0 : k0 = k
    · subst h0
      have hrule : rule0 = rule := by
        rcases List.mem_cons.mp hmem with he | he
        · exact ((Prod.mk.injEq .. ▸ he).2).symm
        · have := hnd.1 _ he
          simp at this
      subst hrule
      cases hgc : getField (contrib incl d k0 rule0) k0 with
      | some v => rfl
      | none =>
        cases hgr : getField (prodT incl d rest) k0 with
        | none => rfl
        | some v =>
          obtain ⟨q, hq, he⟩ := prodT_keys incl d rest _ (mem_of_getField hgr)
          have := hnd.1 q hq
          rw [← he] at this
          simp at this
    · have hgc : getField (contrib incl d k0 rule0) k = none := by
        rcases contrib_shape incl d k0 rule0 with he | ⟨x, he⟩
        · rw [he]; rfl
        · rw [he]
          simp only [getField]
          rw [if_neg (by simp [h0])]
      rw [hgc]
      have hmem' : (k, rule) ∈ rest := by
        rcases List.mem_cons.mp hmem with he | he
        · exact absurd ((Prod.mk.injEq .. ▸ he).1) (fun e => h0 e.symm)
        · exact he
      exact getField_prodT incl d rest k rule hnd.2 hmem'

theorem contrib_idem_of_getField (d R : Val) (k : String) (rule : RuleTree)
    (hget : getKey R k = getField (contrib (some true) d k rule) k)
    (hsub : ∀ v sub, rule = .node sub →
      transform (some true) (transform (some true) v sub) sub =
        transform (some true) v sub) :
    contrib (some true) R k rule = contrib (some true) d k rule := by
  cases rule with
  | leaf lv =>
    cases hg : getKey d k with
    | none =>
      have hr : getKey R k = none := by
        rw [hget, contrib_of_none _ _ _ _ hg]
        rfl
      rw [contrib_of_none _ _ _ _ hr, contrib_of_none _ _ _ _ hg]
    | some v =>
      have hck : contrib (some true) d k (.leaf lv) = [(k, clone v)] := by
        simp [contrib, hg]
      have hr : getKey R k = some (clone v) := by
        rw [hget, hck]
        simp [getField]
      simp [contrib, hr, hg, clone_clone]
  | node sub =>
    cases hg : getKey d k with
    | none =>
      have hr : getKey R k = none := by
        rw [hget, contrib_of_none _ _ _ _ hg]
        rfl
      rw [contrib_of_none _ _ _ _ hr, contrib_of_none _ _ _ _ hg]
    | some v =>
      by_cases ho : jsIsObject v = true
      · have hck : contrib (some true) d k (.node sub) =
            [(k, transform (some true) v sub)] := by
          simp [contrib, hg, ho]
        have hr : getKey R k = some (transform (some true) v sub) := by
          rw [hget, hck]
          simp [getField]
        rw [hck]
        simp only [contrib, hr, jsIsObject_transform_incl, if_true]
        rw [hsub v sub rfl]
      · have hck : contrib (some true) d k (.node sub) = [] := by
          simp [contrib, hg, ho]
        have hr : getKey R k = none := by
          rw [hget, hck]
          rfl
        rw [contrib_of_none _ _ _ _ hr, hck]

theorem contrib_idem (rt : List (String × RuleTree)) (d : Val) (k : String)
    (rule : RuleTree) (hnd : treeKeysNodup rt = true) (hmem : (k, rule) ∈ rt)
    (hsub : ∀ v sub, rule = .node sub →
      transform (some true) (transform (some true) v sub) sub =
        transform (some true) v sub) :
    contrib (some true) (.vobj 0 (prodT (some true) d rt)) k rule =
      contrib (some true) d k rule := by
  apply contrib_idem_of_getField d _ k rule _ hsub
  simp only [getKey]
  exact getField_prodT _ _ rt k rule hnd hmem

theorem transform_incl_idem_nonarr (rt : List (String × RuleTree)) (d : Val)
    (hnd : treeNodupDeep rt = true) (hna : jsIsArray d = false)
    (hsub : ∀ k sub, (k, RuleTree.node sub) ∈ rt → ∀ v,
      transform (some true) (transform (some true) v sub) sub =
        transform (some true) v sub) :
    transform (some true) (transform (some true) d rt) rt =
      transform (some true) d rt := by
  have hk := treeKeysNodup_of_deep rt hnd
  rw [transform_incl_eq_prodT d rt hk hna]
  rw [transform_incl_eq_prodT _ rt hk (by rfl)]
  have : prodT (some true) (.vobj 0 (prodT (some true) d rt)) rt =
      prodT (some true) d rt := by
    apply prodT_congr
    intro p hp
    obtain ⟨k, rule⟩ := p
    exact contrib_idem rt d k rule hk hp
      (fun v sub he => by subst he; exact hsub k sub hp v)
  rw [this]

mutual
theorem transform_incl_idem : ∀ (rt : List (String × RuleTree)) (d : Val),
    treeNodupDeep rt = true →
    transform (some true) (transform (some true) d rt) rt =
      transform (some true) d rt
  | rt, .varr i es, hnd => by
    rw [transform_varr, transform_varr, transformElems_incl_idem rt es hnd]
  | rt, .vnull, hnd =>
    transform_incl_idem_nonarr rt _ hnd rfl
      (fun k sub hmem v => transform_incl_idem sub v
        (by simpa [childNodup] using childNodup_of_mem rt (k, .node sub) hnd hmem))
  | rt, .vbool b, hnd =>
    transform_incl_idem_nonarr rt _ hnd rfl
      (fun k sub hmem v => transform_incl_idem sub v
        (by simpa [childNodup] using childNodup_of_mem rt (k, .node sub) hnd hmem))
  | rt, .vnum n, hnd =>
    transform_incl_idem_nonarr rt _ hnd rfl
      (fun k sub hmem v => transform_incl_idem sub v
        (by simpa [childNodup] using childNodup_of_mem rt (k, .node sub) hnd hmem))
  | rt, .vstr s, hnd =>
    transform_incl_idem_nonarr rt _ hnd rfl
      (fun k sub hmem v => transform_incl_idem sub v
        (by simpa [childNodup] using childNodup_of_mem rt (k, .node sub) hnd hmem))
  | rt, .vdate n, hnd =>
    transform_incl_idem_nonarr rt _ hnd rfl
      (fun k sub hmem v => transform_incl_idem sub v
        (by simpa [childNodup] using childNodup_of_mem rt (k, .node sub) hnd hmem))
  | rt, .vregex s, hnd =>
    transform_incl_idem_nonarr rt _ hnd rfl
      (fun k sub hmem v => transform_incl_idem sub v
        (by simpa [childNodup] using childNodup_of_mem rt (k, .node sub) hnd hmem))
  | rt, .vbin bs, hnd =>
    transform_incl_idem_nonarr rt _ hnd rfl
      (fun k sub hmem v => transform_incl_idem sub v
        (by simpa [childNodup] using childNodup_of_mem rt (k, .node sub) hnd hmem))
  | rt, .vobj i fs, hnd =>
    transform_incl_idem_nonarr rt _ hnd rfl
      (fun k sub hmem v => transform_incl_idem sub v
        (by simpa [childNodup] using childNodup_of_mem rt (k, .node sub) hnd hmem))
termination_by rt d => (sizeOf rt, sizeOf d)
decreasing_by
  all_goals simp_wf
  all_goals first
    | (left
       have h1 := List.sizeOf_lt_of_mem hmem
       simp only [Prod.mk.sizeOf_spec, RuleTree.node.sizeOf_spec] at h1
       omega)
    | (right
       omega)

theorem transformElems_incl_idem : ∀ (rt : List (String × RuleTree)) (es : List Val),
    treeNodupDeep rt = true →
    transformElems (some true) (transformElems (some true) es rt) rt =
      transformElems (some true) es rt
  | rt, [], _ => by rw [transformElems_nil, transformElems_nil]
  | rt, e :: rest, hnd => by
    rw [transformElems_cons, transformElems_cons]
    rw [transform_incl_idem rt e hnd, transformElems_incl_idem rt rest hnd]
termination_by rt es => (sizeOf rt, sizeOf es)
end

theorem transform_sub_idem (rt : List (String × RuleTree))
    (hnd : treeNodupDeep rt = true) (k : String) (rule : RuleTree)
    (hmem : (k, rule) ∈ rt) :
    ∀ v sub, rule = .node sub →
      transform (some true) (transform (some true) v sub) sub =
        transform (some true) v sub := by
  intro v sub he
  subst he
  apply transform_incl_idem
  simpa [childNodup] using childNodup_of_mem rt (k, .node sub) hnd hmem

theorem prodT_filter_of (incl : Option Bool) (R d : Val) (x : String) :
    ∀ (rt : List (String × RuleTree)),
    (∀ k rule, (k, rule) ∈ rt → k ≠ x →
      contrib incl R k rule = contrib incl d k rule) →
    (∀ rule, (x, rule) ∈ rt → contrib incl R x rule = []) →
    prodT incl R rt = (prodT incl d rt).filter (fun q => q.1 != x)
  | [], _, _ => rfl
  | (k, rule) :: rest, h1, h2 => by
    simp only [prodT, List.filter_append]
    have ih := prodT_filter_of incl R d x rest
      (fun k' r' hm hne => h1 k' r' (List.mem_cons_of_mem _ hm) hne)
      (fun r' hm => h2 r' (List.mem_cons_of_mem _ hm))
    rw [ih]
    congr 1
    by_cases hkx : k = x
    · subst hkx
      rw [h2 rule (List.mem_cons_self _ _)]
      rcases contrib_shape incl d k rule with hc | ⟨v, hc⟩
      · rw [hc]
        rfl
      · rw [hc]
        simp
    · rw [h1 k rule (List.mem_cons_self _ _) hkx]
      rcases contrib_shape incl d k rule with hc | ⟨v, hc⟩
      · rw [hc]
        rfl
      · rw [hc]
        simp [hkx]

theorem transform_setKey_idem (rt : List (String × RuleTree)) (d w : Val)
    (x : String) (hnd : treeNodupDeep rt = true) (hna : jsIsArray d = false)
    (hw : getKey d x = some w) :
    transform (some true) (setKey (transform (some true) d rt) x w) rt =
      transform (some true) d rt := by
  have hk := treeKeysNodup_of_deep rt hnd
  rw [transform_incl_eq_prodT d rt hk hna]
  show transform (some true)
      (.vobj 0 (setField (prodT (some true) d rt) x w)) rt = _
  rw [transform_incl_eq_prodT _ rt hk (by rfl)]
  congr 1
  apply prodT_congr
  intro p hp
  obtain ⟨k, rule⟩ := p
  by_cases hkx : k = x
  · subst hkx
    apply contrib_congr
    simp only [getKey]
    rw [getField_setField_self]
    exact hw.symm
  · apply contrib_idem_of_getField d _ k rule _
      (transform_sub_idem rt hnd k rule hp)
    simp only [getKey]
    rw [getField_setField_ne _ _ _ _ hkx, getField_prodT _ _ rt k rule hk hp]

theorem transform_delKey_idem (rt : List (String × RuleTree)) (d : Val)
    (x : String) (hnd : treeNodupDeep rt = true) (hna : jsIsArray d = false) :
    transform (some true) (delKey (transform (some true) d rt) x) rt =
      delKey (transform (some true) d rt) x := by
  have hk := treeKeysNodup_of_deep rt hnd
  rw [transform_incl_eq_prodT d rt hk hna]
  show transform (some true)
      (.vobj 0 ((prodT (some true) d rt).filter (fun q => q.1 != x))) rt =
    .vobj 0 ((prodT (some true) d rt).filter (fun q => q.1 != x))
  rw [transform_incl_eq_prodT _ rt hk (by rfl)]
  congr 1
  apply prodT_filter_of
  · intro k rule hm hkx
    apply contrib_idem_of_getField d _ k rule _
      (transform_sub_idem rt hnd k rule hm)
    simp only [getKey]
    rw [getField_filterKey_ne _ _ _ hkx, getField_prodT _ _ rt k rule hk hm]
  · intro rule hm
    apply contrib_of_none
    simp only [getKey]
    exact getField_filterKey_self _ x

theorem hasKey_delKey_self (v : Val) (x : String) :
    hasKey (delKey v x) x = false := by
  cases v <;> simp [delKey, hasKey, getKey, getField_filterKey_self]

theorem applyProjection_varr (idP : Bool) (rt : List (String × RuleTree))
    (inc : Option Bool) (i : Nat) (es : List Val) :
    applyProjection ⟨idP, ⟨rt, inc⟩⟩ (.varr i es) =
      .varr 0 (transformElems inc es rt) := by
  simp [applyProjection, transform_varr, hasKey, getKey]

theorem applyProjection_id_present (rt : List (String × RuleTree))
    (inc : Option Bool) (d w : Val) (hw : getKey d "_id" = some w) :
    applyProjection ⟨true, ⟨rt, inc⟩⟩ d =
      setKey (transform inc d rt) "_id" w := by
  simp [applyProjection, hasKey, hw]

theorem applyProjection_id_absent (rt : List (String × RuleTree))
    (inc : Option Bool) (d : Val) (h : hasKey d "_id" = false) :
    applyProjection ⟨true, ⟨rt, inc⟩⟩ d = transform inc d rt := by
  simp [applyProjection, h]

theorem applyProjection_noid_present (rt : List (String × RuleTree))
    (inc : Option Bool) (d : Val)
    (h : hasKey (transform inc d rt) "_id" = true) :
    applyProjection ⟨false, ⟨rt, inc⟩⟩ d =
      delKey (transform inc d rt) "_id" := by
  simp [applyProjection, h]

theorem applyProjection_noid_absent (rt : List (String × RuleTree))
    (inc : Option Bool) (d : Val)
    (h : hasKey (transform inc d rt) "_id" = false) :
    applyProjection ⟨false, ⟨rt, inc⟩⟩ d = transform inc d rt := by
  simp [applyProjection, h]

/-- C6: for every valid inclusive specification, the compiled transform is
idempotent: applying it twice to any document gives the same result as
applying it once (proved as exact equality of results, which is stronger
than deep equality). -/
theorem c6_inclusive_idempotent (spec : Val) (p : Projection) (d : Val)
    (hc : compileProjection spec = .ok p)
    (hincl : p.details.including = some true) :
    applyProjection p (applyProjection p d) = applyProjection p d := by
  have hnd0 : treeNodupDeep p.details.tree = true := compile_tree_nodup_deep spec p hc
  obtain ⟨idP, rt, inc⟩ := p
  have hinc : inc = some true := hincl
  subst hinc
  have hnd : treeNodupDeep rt = true := hnd0
  cases ha : jsIsArray d with
  | true =>
    cases d <;> simp [jsIsArray] at ha
    case varr i es =>
      rw [applyProjection_varr, applyProjection_varr,
        transformElems_incl_idem rt es hnd]
  | false =>
    cases idP with
    | true =>
      cases hw : getKey d "_id" with
      | some w =>
        rw [applyProjection_id_present rt (some true) d w hw]
        have hRv : transform (some true) d rt = .vobj 0 (prodT (some true) d rt) :=
          transform_incl_eq_prodT d rt (treeKeysNodup_of_deep rt hnd) ha
        have hw2 : getKey (setKey (transform (some true) d rt) "_id" w) "_id" =
            some w := by
          rw [hRv]
          simp only [setKey, getKey]
          exact getField_setField_self _ _ _
        rw [applyProjection_id_present rt (some true) _ w hw2]
        rw [transform_setKey_idem rt d w "_id" hnd ha hw]
      | none =>
        have h0 : hasKey d "_id" = false := by simp [hasKey, hw]
        rw [applyProjection_id_absent rt (some true) d h0]
        have h1 : hasKey (transform (some true) d rt) "_id" = false :=
          hasKey_transform_false _ _ _ _ h0
        rw [applyProjection_id_absent rt (some true) _ h1]
        exact transform_incl_idem rt d hnd
    | false =>
      cases hR : hasKey (transform (some true) d rt) "_id" with
      | true =>
        rw [applyProjection_noid_present rt (some true) d hR]
        have hTF : transform (some true)
              (delKey (transform (some true) d rt) "_id") rt =
            delKey (transform (some true) d rt) "_id" :=
          transform_delKey_idem rt d "_id" hnd ha
        have hKF : hasKey (transform (some true)
              (delKey (transform (some true) d rt) "_id") rt) "_id" = false := by
          rw [hTF]
          exact hasKey_delKey_self _ _
        rw [applyProjection_noid_absent rt (some true) _ hKF]
        exact hTF
      | false =>
        rw [applyProjection_noid_absent rt (some true) d hR]
        have hTF : transform (some true) (transform (some true) d rt) rt =
            transform (some true) d rt := transform_incl_idem rt d hnd
        have hKF : hasKey (transform (some true)
              (transform (some true) d rt) rt) "_id" = false := by
          rw [hTF]
          exact hR
        rw [applyProjection_noid_absent rt (some true) _ hKF]
        exact hTF

theorem c6_inclusive_idempotent_witness :
    compileProjection (.vobj 0 [("a", .vnum 1)]) =
        .ok ⟨true, ⟨[("a", RuleTree.leaf (some true))], some true⟩⟩ ∧
      applyProjection ⟨true, ⟨[("a", RuleTree.leaf (some true))], some true⟩⟩
          (applyProjection ⟨true, ⟨[("a", RuleTree.leaf (some true))], some true⟩⟩
            (.vobj 7 [("a", .vnum 2), ("_id", .vnum 9)])) =
        applyProjection ⟨true, ⟨[("a", RuleTree.leaf (some true))], some true⟩⟩
          (.vobj 7 [("a", .vnum 2), ("_id", .vnum 9)]) :=
  ⟨by rfl, c6_inclusive_idempotent (.vobj 0 [("a", .vnum 1)]) _ _ (by rfl) rfl⟩

/-- A leaf sits in the tree at the given nonempty segment position. -/
def hasLeafAt : List (String × RuleTree) → List String → Bool
  | _, [] => false
  | cs, [k] =>
    match getChild cs k with
    | some (.leaf _) => true
    | _ => false
  | cs, k :: k2 :: more =>
    match getChild cs k with
    | some (.node sub) => hasLeafAt sub (k2 :: more)
    | _ => false

/-- Some child (leaf or node) sits in the tree at the given nonempty
segment position, with nodes at every intermediate position. -/
def hasChildAt : List (String × RuleTree) → List String → Bool
  | _, [] => false
  | cs, [k] => (getChild cs k).isSome
  | cs, k :: k2 :: more =>
    match getChild cs k with
    | some (.node sub) => hasChildAt sub (k2 :: more)
    | _ => false

theorem getChild_setChild_self (cs : List (String × RuleTree)) (k : String)
    (t : RuleTree) : getChild (setChild cs k t) k = some t := by
  induction cs with
  | nil => simp [setChild, getChild]
  | cons p rest ih =>
    obtain ⟨k0, u⟩ := p
    by_cases h : k0 = k
    · subst h
      simp [setChild, getChild]
    · simp [setChild, getChild, h, ih]

theorem getChild_setChild_ne (cs : List (String × RuleTree)) (k k' : String)
    (t : RuleTree) (h : k' ≠ k) :
    getChild (setChild cs k t) k' = getChild cs k' := by
  induction cs with
  | nil =>
    have hne : ¬(k = k') := fun e => h e.symm
    simp [setChild, getChild, hne]
  | cons p rest ih =>
    obtain ⟨k0, u⟩ := p
    by_cases h0 : k0 = k
    · subst h0
      have hne : ¬(k0 = k') := fun e => h e.symm
      simp [setChild, getChild, hne]
    · simp [setChild, getChild, h0, ih]

theorem insertPath_error_ambiguous (nl : String → Option Bool) (kp : String) :
    ∀ (segs consumed : List String) (cs : List (String × RuleTree)) (e : MError),
      insertPath nl projConflict kp consumed segs cs = .error e →
      ∃ a b, e = .ambiguous a b
  | [], _, cs, e, h => by simp [insertPath] at h
  | [lastKey], consumed, cs, e, h => by
    simp only [insertPath] at h
    split at h
    · simp at h
    · simp only [projConflict] at h
      simp only [Except.error.injEq] at h
      exact ⟨kp, kp, h.symm⟩
  | key :: seg2 :: more, consumed, cs, e, h => by
    simp only [insertPath] at h
    split at h
    · split at h
      · simp at h
      next e' he' =>
        simp only [Except.error.injEq] at h
        subst h
        exact insertPath_error_ambiguous nl kp (seg2 :: more) (consumed ++ [key]) [] _ he'
    · split at h
      · simp at h
      next e' he' =>
        simp only [Except.error.injEq] at h
        subst h
        exact insertPath_error_ambiguous nl kp (seg2 :: more) (consumed ++ [key]) _ _ he'
    · simp only [projConflict] at h
      simp only [Except.error.injEq] at h
      exact ⟨kp, joinPath (consumed ++ [key]), h.symm⟩

theorem insertPath_ok_hasLeaf (nl : String → Option Bool) (kp : String) :
    ∀ (segs consumed : List String) (cs cs' : List (String × RuleTree)),
      segs ≠ [] →
      insertPath nl projConflict kp consumed segs cs = .ok cs' →
      hasLeafAt cs' segs = true
  | [], _, _, _, hne, _ => absurd rfl hne
  | [lastKey], consumed, cs, cs', _, h => by
    simp only [insertPath] at h
    split at h
    · injection h with h2
      subst h2
      simp [hasLeafAt, getChild_setChild_self]
    · simp only [projConflict] at h
      simp at h
  | key :: seg2 :: more, consumed, cs, cs', _, h => by
    simp only [insertPath] at h
    split at h
    · split at h
      next sub hsub =>
        injection h with h2
        subst h2
        have ih := insertPath_ok_hasLeaf nl kp (seg2 :: more) (consumed ++ [key])
          [] sub (by simp) hsub
        simp [hasLeafAt, getChild_setChild_self, ih]
      · simp at h
    · split at h
      next sub' hsub =>
        injection h with h2
        subst h2
        have ih := insertPath_ok_hasLeaf nl kp (seg2 :: more) (consumed ++ [key])
          _ sub' (by simp) hsub
        simp [hasLeafAt, getChild_setChild_self, ih]
      · simp at h
    · simp only [projConflict] at h
      simp at h

theorem insertPath_ok_preserves_leaf (nl : String → Option Bool) (kp : String) :
    ∀ (segsIns consumed : List String) (cs cs' : List (String × RuleTree))
      (segs : List String),
      hasLeafAt cs segs = true →
      insertPath nl projConflict kp consumed segsIns cs = .ok cs' →
      hasLeafAt cs' segs = true
  | [], _, cs, cs', segs, hl, h => by
    simp only [insertPath] at h
    injection h with h2
    subst h2
    exact hl
  | [lastKey], consumed, cs, cs', segs, hl, h => by
    simp only [insertPath] at h
    split at h
    next hg =>
      injection h with h2
      subst h2
      cases segs with
      | nil => simp [hasLeafAt] at hl
      | cons k krest =>
        have hkl : k ≠ lastKey := by
          intro he
          subst he
          cases krest <;> simp [hasLeafAt, hg] at hl
        cases krest with
        | nil => simpa [hasLeafAt, getChild_setChild_ne _ _ _ _ hkl] using hl
        | cons k2 m2 => simpa [hasLeafAt, getChild_setChild_ne _ _ _ _ hkl] using hl
    next existing hg =>
      simp only [projConflict] at h
      simp at h
  | key :: seg2 :: more, consumed, cs, cs', segs, hl, h => by
    simp only [insertPath] at h
    split at h
    next hg =>
      split at h
      next sub hsub =>
        injection h with h2
        subst h2
        cases segs with
        | nil => simp [hasLeafAt] at hl
        | cons k krest =>
          have hkl : k ≠ key := by
            intro he
            subst he
            cases krest <;> simp [hasLeafAt, hg] at hl
          cases krest with
          | nil => simpa [hasLeafAt, getChild_setChild_ne _ _ _ _ hkl] using hl
          | cons k2 m2 => simpa [hasLeafAt, getChild_setChild_ne _ _ _ _ hkl] using hl
      · simp at h
    next sub hg =>
      split at h
      next sub' hsub =>
        injection h with h2
        subst h2
        cases segs with
        | nil => simp [hasLeafAt] at hl
        | cons k krest =>
          by_cases hkl : k = key
          · subst hkl
            cases krest with
            | nil => simp [hasLeafAt, hg] at hl
            | cons k2 m2 =>
              have hl' : hasLeafAt sub (k2 :: m2) = true := by
                simpa [hasLeafAt, hg] using hl
              have ih := insertPath_ok_preserves_leaf nl kp (seg2 :: more)
                (consumed ++ [k]) sub sub' (k2 :: m2) hl' hsub
              simp [hasLeafAt, getChild_setChild_self, ih]
          · cases krest with
            | nil => simpa [hasLeafAt, getChild_setChild_ne _ _ _ _ hkl] using hl
            | cons k2 m2 => simpa [hasLeafAt, getChild_setChild_ne _ _ _ _ hkl] using hl
      · simp at h
    next v hg =>
      simp only [projConflict] at h
      simp at h

theorem insertPath_leaf_above_error (nl : String → Option Bool) (kp : String) :
    ∀ (pre rest consumed : List String) (cs : List (String × RuleTree)),
      hasLeafAt cs pre = true → rest ≠ [] →
      ∃ a b, insertPath nl projConflict kp consumed (pre ++ rest) cs =
        .error (.ambiguous a b)
  | [], _, _, cs, hl, _ => by simp [hasLeafAt] at hl
  | [k], rest, consumed, cs, hl, hrest => by
    cases rest with
    | nil => exact absurd rfl hrest
    | cons r1 more =>
      have hg : ∃ v, getChild cs k = some (.leaf v) := by
        cases hgc : getChild cs k with
        | none => simp [hasLeafAt, hgc] at hl
        | some t =>
          cases t with
          | leaf v => exact ⟨v, rfl⟩
          | node sub => simp [hasLeafAt, hgc] at hl
      obtain ⟨v, hgc⟩ := hg
      refine ⟨kp, joinPath (consumed ++ [k]), ?_⟩
      simp only [List.cons_append, List.nil_append]
      simp only [insertPath, hgc, projConflict]
  | k :: p2 :: morep, rest, consumed, cs, hl, hrest => by
    have hg : ∃ sub, getChild cs k = some (.node sub) ∧
        hasLeafAt sub (p2 :: morep) = true := by
      cases hgc : getChild cs k with
      | none => simp [hasLeafAt, hgc] at hl
      | some t =>
        cases t with
        | leaf v => simp [hasLeafAt, hgc] at hl
        | node sub => exact ⟨sub, rfl, by simpa [hasLeafAt, hgc] using hl⟩
    obtain ⟨sub, hgc, hl'⟩ := hg
    obtain ⟨a, b, hrec⟩ := insertPath_leaf_above_error nl kp (p2 :: morep) rest
      (consumed ++ [k]) sub hl' hrest
    refine ⟨a, b, ?_⟩
    simp only [List.cons_append] at hrec ⊢
    simp only [insertPath, hgc, hrec]

theorem insertPath_ok_hasChild (nl : String → Option Bool) (kp : String) :
    ∀ (pre rest consumed : List String) (cs cs' : List (String × RuleTree)),
      rest ≠ [] →
      insertPath nl projConflict kp consumed (pre ++ rest) cs = .ok cs' →
      pre ≠ [] →
      hasChildAt cs' pre = true
  | [], _, _, _, _, _, _, hpre => absurd rfl hpre
  | [k], rest, consumed, cs, cs', hrest, h, _ => by
    cases rest with
    | nil => exact absurd rfl hrest
    | cons r1 more =>
      simp only [List.cons_append, List.nil_append] at h
      simp only [insertPath] at h
      split at h
      · split at h
        next sub hsub =>
          injection h with h2
          subst h2
          simp [hasChildAt, getChild_setChild_self]
        · simp at h
      · split at h
        next sub' hsub =>
          injection h with h2
          subst h2
          simp [hasChildAt, getChild_setChild_self]
        · simp at h
      · simp only [projConflict] at h
        simp at h
  | k :: p2 :: morep, rest, consumed, cs, cs', hrest, h, _ => by
    simp only [List.cons_append] at h
    simp only [insertPath] at h
    split at h
    · split at h
      next sub hsub =>
        injection h with h2
        subst h2
        have ih := insertPath_ok_hasChild nl kp (p2 :: morep) rest
          (consumed ++ [k]) [] sub hrest (by simpa [List.cons_append] using hsub)
          (by simp)
        simp [hasChildAt, getChild_setChild_self, ih]
      · simp at h
    · split at h
      next sub' hsub =>
        injection h with h2
        subst h2
        have ih := insertPath_ok_hasChild nl kp (p2 :: morep) rest
          (consumed ++ [k]) _ sub' hrest (by simpa [List.cons_append] using hsub)
          (by simp)
        simp [hasChildAt, getChild_setChild_self, ih]
      · simp at h
    · simp only [projConflict] at h
      simp at h

theorem insertPath_ok_preserves_child (nl : String → Option Bool) (kp : String) :
    ∀ (segsIns consumed : List String) (cs cs' : List (String × RuleTree))
      (segs : List String),
      hasChildAt cs segs = true →
      insertPath nl projConflict kp consumed segsIns cs = .ok cs' →
      hasChildAt cs' segs = true
  | [], _, cs, cs', segs, hl, h => by
    simp only [insertPath] at h
    injection h with h2
    subst h2
    exact hl
  | [lastKey], consumed, cs, cs', segs, hl, h => by
    simp only [insertPath] at h
    split at h
    next hg =>
      injection h with h2
      subst h2
      cases segs with
      | nil => simp [hasChildAt] at hl
      | cons k krest =>
        have hkl : k ≠ lastKey := by
          intro he
          subst he
          cases krest <;> simp [hasChildAt, hg] at hl
        cases krest with
        | nil => simpa [hasChildAt, getChild_setChild_ne _ _ _ _ hkl] using hl
        | cons k2 m2 => simpa [hasChildAt, getChild_setChild_ne _ _ _ _ hkl] using hl
    next existing hg =>
      simp only [projConflict] at h
      simp at h
  | key :: seg2 :: more, consumed, cs, cs', segs, hl, h => by
    simp only [insertPath] at h
    split at h
    next hg =>
      split at h
      next sub hsub =>
        injection h with h2
        subst h2
        cases segs with
        | nil => simp [hasChildAt] at hl
        | cons k krest =>
          have hkl : k ≠ key := by
            intro he
            subst he
            cases krest <;> simp [hasChildAt, hg] at hl
          cases krest with
          | nil => simpa [hasChildAt, getChild_setChild_ne _ _ _ _ hkl] using hl
          | cons k2 m2 => simpa [hasChildAt, getChild_setChild_ne _ _ _ _ hkl] using hl
      · simp at h
    next sub hg =>
      split at h
      next sub' hsub =>
        injection h with h2
        subst h2
        cases segs with
        | nil => simp [hasChildAt] at hl
        | cons k krest =>
          by_cases hkl : k = key
          · subst hkl
            cases krest with
            | nil => simp [hasChildAt, getChild_setChild_self]
            | cons k2 m2 =>
              have hl' : hasChildAt sub (k2 :: m2) = true := by
                simpa [hasChildAt, hg] using hl
              have ih := insertPath_ok_preserves_child nl kp (seg2 :: more)
                (consumed ++ [k]) sub sub' (k2 :: m2) hl' hsub
              simp [hasChildAt, getChild_setChild_self, ih]
          · cases krest with
            | nil => simpa [hasChildAt, getChild_setChild_ne _ _ _ _ hkl] using hl
            | cons k2 m2 => simpa [hasChildAt, getChild_setChild_ne _ _ _ _ hkl] using hl
      · simp at h
    next v hg =>
      simp only [projConflict] at h
      simp at h

theorem insertPath_child_error (nl : String → Option Bool) (kp : String) :
    ∀ (segs consumed : List String) (cs : List (String × RuleTree)),
      hasChildAt cs segs = true →
      ∃ a b, insertPath nl projConflict kp consumed segs cs =
        .error (.ambiguous a b)
  | [], _, cs, hl => by simp [hasChildAt] at hl
  | [k], consumed, cs, hl => by
    have hg : ∃ t, getChild cs k = some t := by
      cases hgc : getChild cs k with
      | none => simp [hasChildAt, hgc] at hl
      | some t => exact ⟨t, rfl⟩
    obtain ⟨t, hgc⟩ := hg
    refine ⟨kp, kp, ?_⟩
    simp only [insertPath, hgc, projConflict]
  | k :: k2 :: more, consumed, cs, hl => by
    have hg : ∃ sub, getChild cs k = some (.node sub) ∧
        hasChildAt sub (k2 :: more) = true := by
      cases hgc : getChild cs k with
      | none => simp [hasChildAt, hgc] at hl
      | some t =>
        cases t with
        | leaf v => simp [hasChildAt, hgc] at hl
        | node sub => exact ⟨sub, rfl, by simpa [hasChildAt, hgc] using hl⟩
    obtain ⟨sub, hgc, hl'⟩ := hg
    obtain ⟨a, b, hrec⟩ := insertPath_child_error nl kp (k2 :: more)
      (consumed ++ [k]) sub hl'
    refine ⟨a, b, ?_⟩
    simp only [insertPath, hgc, hrec]

theorem splitSegsAux_ne_nil : ∀ (cs acc : List Char), splitSegsAux cs acc ≠ []
  | [], acc => by simp [splitSegsAux]
  | c :: cs, acc => by
    by_cases h : c = '.'
    · simp [splitSegsAux, h]
    · simpa [splitSegsAux, h] using splitSegsAux_ne_nil cs (c :: acc)

theorem splitPath_ne_nil (s : String) : splitPath s ≠ [] :=
  splitSegsAux_ne_nil s.data []

theorem pathsToTree_leaf_error (nl : String → Option Bool) (k2 : String)
    (segs rest : List String) (hsp : splitPath k2 = segs ++ rest)
    (hrest : rest ≠ []) :
    ∀ (paths : List String) (tree : List (String × RuleTree)),
      hasLeafAt tree segs = true → k2 ∈ paths →
      ∃ a b, pathsToTree paths nl projConflict tree = .error (.ambiguous a b)
  | [], _, _, hmem => by simp at hmem
  | p :: ps, tree, hl, hmem => by
    by_cases hpk : p = k2
    · subst hpk
      obtain ⟨a, b, h⟩ := insertPath_leaf_above_error nl p segs rest [] tree hl hrest
      refine ⟨a, b, ?_⟩
      simp only [pathsToTree, hsp, h]
    · have hmem' : p ∈ [] ∨ k2 ∈ ps := by
        rcases List.mem_cons.mp hmem with he | hm
        · exact absurd he.symm hpk
        · exact Or.inr hm
      have hmem2 : k2 ∈ ps := hmem'.resolve_left (by simp)
      cases hins : insertPath nl projConflict p [] (splitPath p) tree with
      | error e =>
        obtain ⟨a, b, he⟩ := insertPath_error_ambiguous nl p (splitPath p) [] tree e hins
        subst he
        exact ⟨a, b, by simp only [pathsToTree, hins]⟩
      | ok tree' =>
        have hl' := insertPath_ok_preserves_leaf nl p (splitPath p) [] tree tree'
          segs hl hins
        obtain ⟨a, b, h⟩ := pathsToTree_leaf_error nl k2 segs rest hsp hrest
          ps tree' hl' hmem2
        exact ⟨a, b, by simp only [pathsToTree, hins]; exact h⟩

theorem pathsToTree_child_error (nl : String → Option Bool) (k1 : String) :
    ∀ (paths : List String) (tree : List (String × RuleTree)),
      hasChildAt tree (splitPath k1) = true → k1 ∈ paths →
      ∃ a b, pathsToTree paths nl projConflict tree = .error (.ambiguous a b)
  | [], _, _, hmem => by simp at hmem
  | p :: ps, tree, hl, hmem => by
    by_cases hpk : p = k1
    · subst hpk
      obtain ⟨a, b, h⟩ := insertPath_child_error nl p (splitPath p) [] tree hl
      refine ⟨a, b, ?_⟩
      simp only [pathsToTree, h]
    · have hmem2 : k1 ∈ ps := by
        rcases List.mem_cons.mp hmem with he | hm
        · exact absurd he.symm hpk
        · exact hm
      cases hins : insertPath nl projConflict p [] (splitPath p) tree with
      | error e =>
        obtain ⟨a, b, he⟩ := insertPath_error_ambiguous nl p (splitPath p) [] tree e hins
        subst he
        exact ⟨a, b, by simp only [pathsToTree, hins]⟩
      | ok tree' =>
        have hl' := insertPath_ok_preserves_child nl p (splitPath p) [] tree tree'
          (splitPath k1) hl hins
        obtain ⟨a, b, h⟩ := pathsToTree_child_error nl k1 ps tree' hl' hmem2
        exact ⟨a, b, by simp only [pathsToTree, hins]; exact h⟩

theorem pathsToTree_pair_error_fst (nl : String → Option Bool) (k1 k2 : String)
    (rest : List String) (hsp : splitPath k2 = splitPath k1 ++ rest)
    (hrest : rest ≠ []) :
    ∀ (l1 lrest : List String) (tree : List (String × RuleTree)),
      k2 ∈ lrest →
      ∃ a b, pathsToTree (l1 ++ k1 :: lrest) nl projConflict tree =
        .error (.ambiguous a b)
  | [], lrest, tree, hmem => by
    simp only [List.nil_append]
    cases hins : insertPath nl projConflict k1 [] (splitPath k1) tree with
    | error e =>
      obtain ⟨a, b, he⟩ := insertPath_error_ambiguous nl k1 (splitPath k1) [] tree e hins
      subst he
      exact ⟨a, b, by simp only [pathsToTree, hins]⟩
    | ok tree' =>
      have hl := insertPath_ok_hasLeaf nl k1 (splitPath k1) [] tree tree'
        (splitPath_ne_nil k1) hins
      obtain ⟨a, b, h⟩ := pathsToTree_leaf_error nl k2 (splitPath k1) rest hsp hrest
        lrest tree' hl hmem
      exact ⟨a, b, by simp only [pathsToTree, hins]; exact h⟩
  | p :: l1', lrest, tree, hmem => by
    cases hins : insertPath nl projConflict p [] (splitPath p) tree with
    | error e =>
      obtain ⟨a, b, he⟩ := insertPath_error_ambiguous nl p (splitPath p) [] tree e hins
      subst he
      exact ⟨a, b, by simp only [List.cons_append, pathsToTree, hins]⟩
    | ok tree' =>
      obtain ⟨a, b, h⟩ := pathsToTree_pair_error_fst nl k1 k2 rest hsp hrest
        l1' lrest tree' hmem
      exact ⟨a, b, by simp only [List.cons_append, pathsToTree, hins]; exact h⟩

theorem pathsToTree_pair_error_snd (nl : String → Option Bool) (k1 k2 : String)
    (rest : List String) (hsp : splitPath k2 = splitPath k1 ++ rest)
    (hrest : rest ≠ []) :
    ∀ (l1 lrest : List String) (tree : List (String × RuleTree)),
      k1 ∈ lrest →
      ∃ a b, pathsToTree (l1 ++ k2 :: lrest) nl projConflict tree =
        .error (.ambiguous a b)
  | [], lrest, tree, hmem => by
    simp only [List.nil_append]
    cases hins : insertPath nl projConflict k2 [] (splitPath k2) tree with
    | error e =>
      obtain ⟨a, b, he⟩ := insertPath_error_ambiguous nl k2 (splitPath k2) [] tree e hins
      subst he
      exact ⟨a, b, by simp only [pathsToTree, hins]⟩
    | ok tree' =>
      have hc : hasChildAt tree' (splitPath k1) = true := by
        apply insertPath_ok_hasChild nl k2 (splitPath k1) rest [] tree tree' hrest
        · rw [← hsp]
          exact hins
        · exact splitPath_ne_nil k1
      obtain ⟨a, b, h⟩ := pathsToTree_child_error nl k1 lrest tree' hc hmem
      exact ⟨a, b, by simp only [pathsToTree, hins]; exact h⟩
  | p :: l1', lrest, tree, hmem => by
    cases hins : insertPath nl projConflict p [] (splitPath p) tree with
    | error e =>
      obtain ⟨a, b, he⟩ := insertPath_error_ambiguous nl p (splitPath p) [] tree e hins
      subst he
      exact ⟨a, b, by simp only [List.cons_append, pathsToTree, hins]⟩
    | ok tree' =>
      obtain ⟨a, b, h⟩ := pathsToTree_pair_error_snd nl k1 k2 rest hsp hrest
        l1' lrest tree' hmem
      exact ⟨a, b, by simp only [List.cons_append, pathsToTree, hins]; exact h⟩

theorem mem_two_split : ∀ (l : List String) (a b : String),
    a ∈ l → b ∈ l → a ≠ b →
    (∃ s m t, l = s ++ (a :: (m ++ (b :: t)))) ∨
      (∃ s m t, l = s ++ (b :: (m ++ (a :: t))))
  | [], a, b, ha, _, _ => by simp at ha
  | x :: xs, a, b, ha, hb, hne => by
    by_cases hxa : x = a
    · subst hxa
      have hb' : b ∈ xs := by
        rcases List.mem_cons.mp hb with he | hm
        · exact absurd he.symm hne
        · exact hm
      obtain ⟨s, t, hst⟩ := List.append_of_mem hb'
      exact Or.inl ⟨[], s, t, by simp [hst]⟩
    · by_cases hxb : x = b
      · subst hxb
        have ha' : a ∈ xs := by
          rcases List.mem_cons.mp ha with he | hm
          · exact absurd he.symm hxa
          · exact hm
        obtain ⟨s, t, hst⟩ := List.append_of_mem ha'
        exact Or.inr ⟨[], s, t, by simp [hst]⟩
      · have ha' : a ∈ xs := by
          rcases List.mem_cons.mp ha with he | hm
          · exact absurd he.symm hxa
          · exact hm
        have hb' : b ∈ xs := by
          rcases List.mem_cons.mp hb with he | hm
          · exact absurd he.symm hxb
          · exact hm
        rcases mem_two_split xs a b ha' hb' hne with ⟨s, m, t, hs⟩ | ⟨s, m, t, hs⟩
        · exact Or.inl ⟨x :: s, m, t, by simp [hs]⟩
        · exact Or.inr ⟨x :: s, m, t, by simp [hs]⟩

/-- C3 (amended): for every specification that passes validation and whose
working keys resolve to a single mode, if the working key set contains two
keys one of whose dot-split segment lists strictly extends the other's,
compilation fails with `AmbiguousProjectionPathError`, in either relative
order of the two keys. (The original claim is refuted: when one of the
overlapping paths is an exclusive `_id` that gets dropped from the working
keys the spec compiles, and mixed-truthiness overlapping specs fail with
`MixedProjectionModeError` first.) -/
theorem c3_overlapping_paths (fields : Val) (inc : Option Bool)
    (k1 k2 : String) (rest : List String)
    (hval : checkSupportedProjection fields = .ok ())
    (hinc : resolveIncluding fields (workingKeys fields) none = .ok inc)
    (hk1 : k1 ∈ workingKeys fields) (hk2 : k2 ∈ workingKeys fields)
    (hsp : splitPath k2 = splitPath k1 ++ rest) (hrest : rest ≠ []) :
    ∃ a b, compileProjection fields = .error (.ambiguous a b) := by
  have hne : k1 ≠ k2 := by
    intro he
    subst he
    have hlen := congrArg List.length hsp
    simp only [List.length_append] at hlen
    have : rest.length = 0 := by omega
    exact hrest (List.length_eq_zero.mp this)
  have hfold : ∃ a b, pathsToTree (workingKeys fields) (fun _ => inc)
      projConflict [] = .error (.ambiguous a b) := by
    rcases mem_two_split (workingKeys fields) k1 k2 hk1 hk2 hne with
      ⟨s, m, t, hdec⟩ | ⟨s, m, t, hdec⟩
    · rw [hdec]
      exact pathsToTree_pair_error_fst (fun _ => inc) k1 k2 rest hsp hrest
        s (m ++ k2 :: t) [] (by simp)
    · rw [hdec]
      exact pathsToTree_pair_error_snd (fun _ => inc) k1 k2 rest hsp hrest
        s (m ++ k1 :: t) [] (by simp)
  obtain ⟨a, b, hpt⟩ := hfold
  refine ⟨a, b, ?_⟩
  simp only [compileProjection, hval]
  simp only [projectionDetails, hinc, hpt]

/-- C3 counterexample: the spec `{_id: 0, "_id.a": 0}` contains the
overlapping paths `_id` and `_id.a`, yet it compiles successfully, because
the exclusive `_id` key is dropped from the working keys before the tree is
built. -/
theorem c3_counterexample :
    compileProjection (.vobj 0 [("_id", .vnum 0), ("_id.a", .vnum 0)]) =
      .ok ⟨false, ⟨[("_id", .node [("a", .leaf (some false))])], some false⟩⟩ :=
  rfl

theorem c3_overlapping_paths_witness :
    checkSupportedProjection (.vobj 0 [("a", .vnum 1), ("a.b", .vnum 1)]) =
        .ok () ∧
      resolveIncluding (.vobj 0 [("a", .vnum 1), ("a.b", .vnum 1)])
        (workingKeys (.vobj 0 [("a", .vnum 1), ("a.b", .vnum 1)])) none =
        .ok (some true) ∧
      "a" ∈ workingKeys (.vobj 0 [("a", .vnum 1), ("a.b", .vnum 1)]) ∧
      "a.b" ∈ workingKeys (.vobj 0 [("a", .vnum 1), ("a.b", .vnum 1)]) ∧
      splitPath "a.b" = splitPath "a" ++ ["b"] ∧
      ∃ a b, compileProjection (.vobj 0 [("a", .vnum 1), ("a.b", .vnum 1)]) =
        .error (.ambiguous a b) :=
  ⟨rfl, rfl, List.mem_cons_self _ _,
    List.mem_cons_of_mem _ (List.mem_cons_self _ _), rfl,
    c3_overlapping_paths _ (some true) "a" "a.b" ["b"] rfl rfl
      (List.mem_cons_self _ _)
      (List.mem_cons_of_mem _ (List.mem_cons_self _ _)) rfl
      (List.cons_ne_nil _ _)⟩

end MiniMongo
